import Mathlib

/-!
Verification of the `const-decoder` byte-decoder core against its
natural-language specification.

The development shallowly embeds the decoder sources:

* `src/decoder.rs` : the alphabet table (`Encoding`), the hexadecimal
  two-state machine, the generic bit-packing machine
  (`CustomDecoderState`), the decoder state dispatch (`DecoderState`)
  and the decode driver (`Decoder.do_decode`);
* `src/wrappers.rs` : the whitespace / PEM skip policies (`Skipper`).

Machine integers (`u8`, `usize`) are modelled as `Nat`, with `% 256`
inserted where a `u8` shift or store truncates.  Rust `const` panics
(invalid characters, length mismatches, left-over state, out-of-bounds
indexing) are modelled as `Except` errors; the error constructors record
the same data the source panic messages report.  The driver's
`while` loop is modelled by a fuel-indexed structural recursion
(`loopGo`); `do_decode` supplies `input.length` fuel, which is always
sufficient because every iteration advances the input cursor.
-/

/-- Errors raised while building an alphabet table (`Encoding::new`),
mirroring the `compile_panic!` / `compile_assert!` messages of the source. -/
inductive EncodingError where
  | invalidAlphabetLength : Nat → EncodingError
  | nonAsciiChar : Nat → EncodingError
  | duplicateChar : Nat → EncodingError
deriving DecidableEq, Repr

/-- Errors raised during decoding, mirroring the source panics:
unmapped character (`Encoding::lookup`), out-of-bounds table access
(`self.table[ascii_char as usize]` with `ascii_char ≥ 128`), invalid hex
digit, output length overflow / underflow, and left-over state. -/
inductive DecodeError where
  | unmappedChar : Nat → DecodeError
  | tableIndexOutOfBounds : Nat → DecodeError
  | invalidHexChar : Nat → DecodeError
  | outputOverflow : Nat → Nat → DecodeError
  | outputUnderflow : Nat → Nat → DecodeError
  | leftoverState : DecodeError
deriving DecidableEq, Repr

/-- Decidable equality for `Except` results, used to evaluate concrete
decode runs. -/
instance {ε α : Type} [DecidableEq ε] [DecidableEq α] : DecidableEq (Except ε α) := fun x y =>
  match x, y with
  | .ok a, .ok b =>
    if h : a = b then .isTrue (by rw [h]) else .isFalse (fun hc => h (Except.ok.inj hc))
  | .error a, .error b =>
    if h : a = b then .isTrue (by rw [h]) else .isFalse (fun hc => h (Except.error.inj hc))
  | .ok _, .error _ => .isFalse (fun hc => Except.noConfusion hc)
  | .error _, .ok _ => .isFalse (fun hc => Except.noConfusion hc)

/-- `Encoding` (decoder.rs): a 128-entry lookup table from ASCII bytes to
digit values, plus the number of bits per digit. -/
structure Encoding where
  table : List Nat
  bits_per_char : Nat
deriving DecidableEq, Repr

/-- `Encoding::NO_MAPPING = u8::MAX`. -/
def Encoding.noMapping : Nat := 255

/-- The `match alphabet.len()` of `Encoding::new`, deciding bits per digit. -/
def bitsForLength (len : Nat) : Option Nat :=
  if len = 2 then some 1
  else if len = 4 then some 2
  else if len = 8 then some 3
  else if len = 16 then some 4
  else if len = 32 then some 5
  else if len = 64 then some 6
  else none

/-- The table-filling `while` loop of `Encoding::new`: walk the alphabet,
rejecting non-ASCII and repeated characters, storing each character's
index.  The loop is structural on the unprocessed suffix of the
alphabet, with `index` counting the characters already processed. -/
def buildTable : List Nat → Nat → List Nat → Except EncodingError (List Nat)
  | [], _, table => .ok table
  | byte :: rest, index, table =>
    if 128 ≤ byte then .error (.nonAsciiChar index)
    else if table.getD byte 0 ≠ Encoding.noMapping then .error (.duplicateChar byte)
    else buildTable rest (index + 1) (table.set byte index)

/-- `Encoding::new`: length check, then table building. -/
def Encoding.new (alphabet : List Nat) : Except EncodingError Encoding :=
  match bitsForLength alphabet.length with
  | none => .error (.invalidAlphabetLength alphabet.length)
  | some bits =>
    match buildTable alphabet 0 (List.replicate 128 Encoding.noMapping) with
    | .error e => .error e
    | .ok table => .ok { table := table, bits_per_char := bits }

/-- `Encoding::lookup`: `self.table[ascii_char as usize]` followed by the
`NO_MAPPING` assertion.  Indexing a 128-entry array with a byte ≥ 128 is
an out-of-bounds panic in the source, modelled by
`tableIndexOutOfBounds`. -/
def Encoding.lookup (e : Encoding) (c : Nat) : Except DecodeError Nat :=
  match e.table[c]? with
  | none => .error (.tableIndexOutOfBounds c)
  | some m => if m = Encoding.noMapping then .error (.unmappedChar c) else .ok m

/-- The standard Base64 alphabet bytes
(`"ABC…XYZabc…xyz012…789+/"`, decoder.rs `Encoding::BASE64`). -/
def base64Alphabet : List Nat :=
  (List.range 26).map (fun i => 65 + i) ++ (List.range 26).map (fun i => 97 + i) ++
    (List.range 10).map (fun i => 48 + i) ++ [43, 47]

/-- The URL-safe Base64 alphabet bytes (`Encoding::BASE64_URL`, ending `-_`). -/
def base64UrlAlphabet : List Nat :=
  (List.range 26).map (fun i => 65 + i) ++ (List.range 26).map (fun i => 97 + i) ++
    (List.range 10).map (fun i => 48 + i) ++ [45, 95]

/-- `Encoding::BASE64`.  In the source this is a `const` whose
construction is checked at compile time; the error branch below is dead
(see `Encoding_new_base64`). -/
def Encoding.BASE64 : Encoding :=
  match Encoding.new base64Alphabet with
  | .ok e => e
  | .error _ => { table := [], bits_per_char := 0 }

/-- `Encoding::BASE64_URL`. -/
def Encoding.BASE64_URL : Encoding :=
  match Encoding.new base64UrlAlphabet with
  | .ok e => e
  | .error _ => { table := [], bits_per_char := 0 }

/-- `HexDecoderState::byte_value`: decode one hex digit character. -/
def hexByteValue (c : Nat) : Except DecodeError Nat :=
  if 48 ≤ c ∧ c ≤ 57 then .ok (c - 48)
  else if 65 ≤ c ∧ c ≤ 70 then .ok (c - 65 + 10)
  else if 97 ≤ c ∧ c ≤ 102 then .ok (c - 97 + 10)
  else .error (.invalidHexChar c)

/-- `HexDecoderState::update`: the hex state is the optional pending
nibble (`HexDecoderState(Option<u8>)`).  `(b << 4) + byte` on `u8` is
modelled with `% 256`. -/
def hexUpdate (st : Option Nat) (c : Nat) : Except DecodeError (Option Nat × Option Nat) :=
  match hexByteValue c with
  | .error e => .error e
  | .ok v =>
    match st with
    | some b => .ok (none, some (((b <<< 4) % 256 + v) % 256))
    | none => .ok (some v, none)

/-- `CustomDecoderState` (decoder.rs): the generic bit-packing machine.
`accum_byte` models the source field `partial_byte`. -/
structure CustomDecoderState where
  table : Encoding
  accum_byte : Nat
  filled_bits : Nat
deriving DecidableEq, Repr

/-- `CustomDecoderState::new`. -/
def CustomDecoderState.new (table : Encoding) : CustomDecoderState :=
  { table := table, accum_byte := 0, filled_bits := 0 }

/-- The digit-level transition of `CustomDecoderState::update`
(decoder.rs lines 152–168, after the alphabet lookup has produced the
digit `d`).  `u8` shifts and stores are truncated with `% 256`. -/
def CustomDecoderState.step (st : CustomDecoderState) (d : Nat) :
    CustomDecoderState × Option Nat :=
  let bits := st.table.bits_per_char
  if st.filled_bits < 8 - bits then
    ({ st with accum_byte := ((st.accum_byte <<< bits) % 256 + d) % 256,
               filled_bits := st.filled_bits + bits }, none)
  else if st.filled_bits = 8 - bits then
    ({ st with accum_byte := 0, filled_bits := 0 },
      some (((st.accum_byte <<< bits) % 256 + d) % 256))
  else
    let remaining_bits := 8 - st.filled_bits
    let new_filled_bits := bits - remaining_bits
    ({ st with accum_byte := d % (1 <<< new_filled_bits), filled_bits := new_filled_bits },
      some (((st.accum_byte <<< remaining_bits) % 256 + (d >>> new_filled_bits)) % 256))

/-- `CustomDecoderState::update`: alphabet lookup, then the bit-packing
transition. -/
def CustomDecoderState.update (st : CustomDecoderState) (c : Nat) :
    Except DecodeError (CustomDecoderState × Option Nat) :=
  match st.table.lookup c with
  | .error e => .error e
  | .ok d => .ok (st.step d)

/-- `CustomDecoderState::is_final`: only the accumulator is checked
(`self.partial_byte == 0`); `filled_bits` is deliberately ignored. -/
def CustomDecoderState.is_final (st : CustomDecoderState) : Bool :=
  st.accum_byte == 0

/-- `DecoderState` (decoder.rs): hex state, Base64 state (with `=`
special-casing) or custom state. -/
inductive DecoderState where
  | hex : Option Nat → DecoderState
  | base64 : CustomDecoderState → DecoderState
  | custom : CustomDecoderState → DecoderState
deriving DecidableEq, Repr

/-- `DecoderState::update`.  For the Base64 variant only, the byte `=`
(61) is consumed silently. -/
def DecoderState.update : DecoderState → Nat → Except DecodeError (DecoderState × Option Nat)
  | .hex st, c =>
    match hexUpdate st c with
    | .error e => .error e
    | .ok (st', out) => .ok (.hex st', out)
  | .base64 st, c =>
    if c = 61 then .ok (.base64 st, none)
    else
      match st.update c with
      | .error e => .error e
      | .ok (st', out) => .ok (.base64 st', out)
  | .custom st, c =>
    match st.update c with
    | .error e => .error e
    | .ok (st', out) => .ok (.custom st', out)

/-- `DecoderState::is_final`. -/
def DecoderState.is_final : DecoderState → Bool
  | .hex st => st.isNone
  | .base64 st => st.is_final
  | .custom st => st.is_final

/-- `u8::is_ascii_whitespace`: space, tab, line feed, form feed,
carriage return. -/
def isAsciiWhitespace (c : Nat) : Bool :=
  c = 32 || c = 9 || c = 10 || c = 12 || c = 13

/-- The skip policies of wrappers.rs. -/
inductive Skipper where
  | whitespace
  | pem
deriving DecidableEq, Repr

/-- The `while i < input.len() && input[i] != b'\n'` scan inside
`Skipper::detect_pem_header`, as a fuel-indexed structural recursion;
`input.length` fuel is always sufficient. -/
def findEolGo (input : List Nat) : Nat → Nat → Nat
  | 0, i => i
  | fuel + 1, i =>
    if i < input.length ∧ input.getD i 0 ≠ 10 then findEolGo input fuel (i + 1) else i

/-- `Skipper::detect_pem_header`: five consecutive dashes, then advance
to the next newline (the returned position is the newline itself, or the
end of input). -/
def Skipper.detectPemHeader (input : List Nat) (i : Nat) : Option Nat :=
  if input.length < i + 5 then none
  else if input.getD i 0 = 45 ∧ input.getD (i + 1) 0 = 45 ∧ input.getD (i + 2) 0 = 45 ∧
      input.getD (i + 3) 0 = 45 ∧ input.getD (i + 4) 0 = 45 then
    some (findEolGo input input.length (i + 5))
  else none

/-- `Skipper::skip`.  Only called with `in_index < input.length`. -/
def Skipper.skip (sk : Skipper) (input : List Nat) (in_index : Nat) : Nat :=
  if isAsciiWhitespace (input.getD in_index 0) then in_index + 1
  else
    match sk with
    | .pem =>
      match Skipper.detectPemHeader input in_index with
      | some new_in_index => new_in_index
      | none => in_index
    | .whitespace => in_index

/-- `Decoder` (decoder.rs): the decoder configuration. -/
inductive Decoder where
  | hex
  | base64
  | base64Url
  | custom : Encoding → Decoder
deriving DecidableEq, Repr

/-- `Decoder::custom`. -/
def Decoder.customOf (alphabet : List Nat) : Except EncodingError Decoder :=
  match Encoding.new alphabet with
  | .error e => .error e
  | .ok e => .ok (.custom e)

/-- `Decoder::new_state`. -/
def Decoder.new_state : Decoder → DecoderState
  | .hex => .hex none
  | .base64 => .base64 (CustomDecoderState.new Encoding.BASE64)
  | .base64Url => .base64 (CustomDecoderState.new Encoding.BASE64_URL)
  | .custom e => .custom (CustomDecoderState.new e)

/-- The `while in_index < input.len()` loop of `Decoder::do_decode`:
apply the skip policy (retrying from the new position when it advances),
otherwise feed the byte to the state machine; an emitted byte is written
at `out_index` only when `out_index < N`, but `out_index` is always
incremented.  Structural on `fuel`; `fuel ≥ input.length - in_index`
makes it agree with the source loop, since each iteration advances
`in_index`. -/
def loopGo (skipper : Option Skipper) (input : List Nat) (cap : Nat) :
    Nat → Nat → DecoderState → List Nat → Nat →
    Except DecodeError (List Nat × Nat × DecoderState)
  | 0, _, state, bytes, out_index => .ok (bytes, out_index, state)
  | fuel + 1, in_index, state, bytes, out_index =>
    if in_index < input.length then
      let skipped :=
        match skipper with
        | some sk => sk.skip input in_index
        | none => in_index
      if skipped ≠ in_index then loopGo skipper input cap fuel skipped state bytes out_index
      else
        match state.update (input.getD in_index 0) with
        | .error e => .error e
        | .ok (state', out) =>
          match out with
          | none => loopGo skipper input cap fuel (in_index + 1) state' bytes out_index
          | some byte =>
            loopGo skipper input cap fuel (in_index + 1) state'
              (if out_index < cap then bytes.set out_index byte else bytes) (out_index + 1)
    else .ok (bytes, out_index, state)

/-- `Decoder::do_decode`: run the loop, then check for overflow
(`out_index ≤ N`), underflow (`out_index == N`) and left-over state. -/
def Decoder.do_decode (d : Decoder) (input : List Nat) (skipper : Option Skipper)
    (N : Nat) : Except DecodeError (List Nat) :=
  match loopGo skipper input N input.length 0 d.new_state (List.replicate N 0) 0 with
  | .error e => .error e
  | .ok (bytes, out_index, state) =>
    if N < out_index then .error (.outputOverflow out_index N)
    else if out_index ≠ N then .error (.outputUnderflow out_index N)
    else if state.is_final then .ok bytes
    else .error .leftoverState

/-- `Decoder::decode`: no skip policy. -/
def Decoder.decode (d : Decoder) (input : List Nat) (N : Nat) :
    Except DecodeError (List Nat) :=
  d.do_decode input none N

/-- `SkipWhitespace::decode` (wrappers.rs). -/
def SkipWhitespace.decode (d : Decoder) (input : List Nat) (N : Nat) :
    Except DecodeError (List Nat) :=
  d.do_decode input (some .whitespace) N

/-- `Pem::decode` (wrappers.rs): Base64 with the PEM skip policy. -/
def Pem.decode (input : List Nat) (N : Nat) : Except DecodeError (List Nat) :=
  Decoder.base64.do_decode input (some .pem) N

/-!  Specification-level functions and run abstractions. -/

/-- Big-endian value of a digit list in the given base. -/
def beVal (base : Nat) (l : List Nat) : Nat :=
  l.foldl (fun acc d => acc * base + d) 0

/-- The `m` big-endian base-`base` digits of `x` (most significant first). -/
def natToDigitsBE (base : Nat) : Nat → Nat → List Nat
  | 0, _ => []
  | m + 1, x => x / base ^ m % base :: natToDigitsBE base m x

/-- Number of digits needed to encode `n` bytes at `bits` bits per digit
(ceiling of `8*n/bits`). -/
def digitCount (bits n : Nat) : Nat := (8 * n + (bits - 1)) / bits

/-- Zero bits appended after the `8*n` payload bits to fill the last digit. -/
def padBits (bits n : Nat) : Nat := bits * digitCount bits n - 8 * n

/-- Modelled from the spec: the standard inverse of the generic decoder —
the byte sequence read as big-endian `bits`-wide chunks, the last chunk
zero-padded ("big-endian bits-per-digit chunks"). -/
def encodeDigits (bits : Nat) (b : List Nat) : List Nat :=
  natToDigitsBE (2 ^ bits) (digitCount bits b.length) (beVal 256 b * 2 ^ padBits bits b.length)

/-- Modelled from the spec: encode with a custom alphabet — each chunk
digit replaced by the alphabet character at its position. -/
def encodeWith (alphabet : List Nat) (bits : Nat) (b : List Nat) : List Nat :=
  (encodeDigits bits b).map (fun d => alphabet.getD d 0)

/-- Modelled from the spec: a hex digit character (uppercase) for a nibble. -/
def hexDigitChar (v : Nat) : Nat := if v < 10 then 48 + v else 55 + v

/-- Modelled from the spec: hex encoding — two hex digit characters per
byte, high nibble first. -/
def encodeHex : List Nat → List Nat
  | [] => []
  | x :: rest => hexDigitChar (x / 16) :: hexDigitChar (x % 16) :: encodeHex rest

/-- Modelled from the spec: RFC 4648 Base64 encoding over the given
alphabet — 6-bit big-endian chunks followed by `=` padding to a multiple
of four characters. -/
def encodeBase64With (alphabet : List Nat) (b : List Nat) : List Nat :=
  encodeWith alphabet 6 b ++ List.replicate ((4 - (encodeDigits 6 b).length % 4) % 4) 61

/-- Run the decoder state over a character list, collecting the emitted
bytes in order (the loop of `do_decode` without skipper or buffer). -/
def runList (st : DecoderState) : List Nat → Except DecodeError (DecoderState × List Nat)
  | [] => .ok (st, [])
  | c :: cs =>
    match st.update c with
    | .error e => .error e
    | .ok (st1, o) =>
      match runList st1 cs with
      | .error e => .error e
      | .ok (st2, out) => .ok (st2, o.toList ++ out)

/-- Run the generic machine over a character list (lookup + step each). -/
def runCustom (st : CustomDecoderState) : List Nat → Except DecodeError (CustomDecoderState × List Nat)
  | [] => .ok (st, [])
  | c :: cs =>
    match st.update c with
    | .error e => .error e
    | .ok (st1, o) =>
      match runCustom st1 cs with
      | .error e => .error e
      | .ok (st2, out) => .ok (st2, o.toList ++ out)

/-- Run the digit-level transition over a digit list. -/
def stepAll (st : CustomDecoderState) : List Nat → CustomDecoderState × List Nat
  | [] => (st, [])
  | d :: ds =>
    let p := st.step d
    let q := stepAll p.1 ds
    (q.1, p.2.toList ++ q.2)

/-- Write a byte list into a buffer at successive positions, dropping
writes at positions `≥ cap` (the guarded write of the driver loop). -/
def writeAll (cap : Nat) (bytes : List Nat) (k : Nat) : List Nat → List Nat
  | [] => bytes
  | b :: bs => writeAll cap (if k < cap then bytes.set k b else bytes) (k + 1) bs

/-- `ys` is `xs` with runs of ASCII whitespace inserted between (and
around) its characters. -/
inductive WsInserted : List Nat → List Nat → Prop
  | nil : WsInserted [] []
  | ws {w : Nat} {xs ys : List Nat} : isAsciiWhitespace w = true →
      WsInserted xs ys → WsInserted xs (w :: ys)
  | keep {x : Nat} {xs ys : List Nat} : WsInserted xs ys → WsInserted (x :: xs) (x :: ys)

/-- The representation invariant of the generic bit-packing state: fewer
than 8 buffered bits, and the accumulator holds only those bits. -/
def StateInv (st : CustomDecoderState) : Prop :=
  st.filled_bits < 8 ∧ st.accum_byte < 2 ^ st.filled_bits

/-!  Basic arithmetic lemmas. -/

theorem shiftLeft_lor_eq_add {a b n : Nat} (h : b < 2 ^ n) :
    (a <<< n) ||| b = a <<< n + b := by
  apply Nat.eq_of_testBit_eq
  intro i
  rw [Nat.testBit_lor, Nat.shiftLeft_eq, Nat.mul_comm, Nat.testBit_mul_pow_two_add a h i]
  rcases Nat.lt_or_ge i n with hi | hi
  · simp [Nat.testBit_mul_pow_two, hi, Nat.not_le_of_lt hi]
  · have hb : b.testBit i = false :=
      Nat.testBit_lt_two_pow (lt_of_lt_of_le h (Nat.pow_le_pow_right (by norm_num) hi))
    simp [Nat.testBit_mul_pow_two, hi, hb, Nat.not_lt_of_le hi]

theorem beVal_foldl (base : Nat) (l : List Nat) (acc : Nat) :
    l.foldl (fun a d => a * base + d) acc = acc * base ^ l.length + beVal base l := by
  induction l generalizing acc with
  | nil => simp [beVal]
  | cons x xs ih =>
    show List.foldl _ (acc * base + x) xs = _
    rw [ih (acc * base + x)]
    have hx : beVal base (x :: xs) = x * base ^ xs.length + beVal base xs := by
      show List.foldl _ (0 * base + x) xs = _
      rw [Nat.zero_mul, Nat.zero_add, ih x]
    rw [hx, List.length_cons, pow_succ]
    ring

theorem beVal_cons (base d : Nat) (ds : List Nat) :
    beVal base (d :: ds) = d * base ^ ds.length + beVal base ds := by
  show List.foldl _ (0 * base + d) ds = _
  rw [Nat.zero_mul, Nat.zero_add, beVal_foldl]

theorem beVal_append (base : Nat) (l1 l2 : List Nat) :
    beVal base (l1 ++ l2) = beVal base l1 * base ^ l2.length + beVal base l2 := by
  induction l1 with
  | nil => simp [beVal]
  | cons x xs ih =>
    rw [List.cons_append, beVal_cons, ih, beVal_cons, List.length_append, pow_add]
    ring

theorem beVal_lt (base : Nat) (l : List Nat) (hb : 0 < base)
    (h : ∀ x ∈ l, x < base) : beVal base l < base ^ l.length := by
  induction l with
  | nil => simpa [beVal]
  | cons x xs ih =>
    rw [beVal_cons]
    have hx : x < base := h x (by simp)
    have hxs : beVal base xs < base ^ xs.length := ih (fun y hy => h y (by simp [hy]))
    have : x * base ^ xs.length + beVal base xs < (x + 1) * base ^ xs.length := by
      rw [Nat.succ_mul]
      omega
    calc x * base ^ xs.length + beVal base xs < (x + 1) * base ^ xs.length := this
      _ ≤ base * base ^ xs.length := Nat.mul_le_mul_right _ hx
      _ = base ^ (x :: xs).length := by rw [List.length_cons, Nat.pow_succ]; ring

theorem beVal_inj (base : Nat) (hb : 0 < base) :
    ∀ (l1 l2 : List Nat), l1.length = l2.length → (∀ x ∈ l1, x < base) →
    (∀ x ∈ l2, x < base) → beVal base l1 = beVal base l2 → l1 = l2 := by
  intro l1
  induction l1 with
  | nil => intro l2 hlen _ _ _; cases l2 with
    | nil => rfl
    | cons y ys => simp at hlen
  | cons x xs ih =>
    intro l2 hlen h1 h2 hv
    cases l2 with
    | nil => simp at hlen
    | cons y ys =>
      simp only [List.length_cons, Nat.add_right_cancel_iff] at hlen
      rw [beVal_cons, beVal_cons, hlen] at hv
      have hxs : beVal base xs < base ^ ys.length := by
        rw [← hlen]; exact beVal_lt base xs hb (fun z hz => h1 z (by simp [hz]))
      have hys : beVal base ys < base ^ ys.length :=
        beVal_lt base ys hb (fun z hz => h2 z (by simp [hz]))
      have hpow : 0 < base ^ ys.length := Nat.pos_pow_of_pos _ hb
      have hx : x = y := by
        have e1 : (x * base ^ ys.length + beVal base xs) / base ^ ys.length = x := by
          rw [Nat.mul_comm, Nat.mul_add_div hpow, Nat.div_eq_of_lt hxs, Nat.add_zero]
        have e2 : (y * base ^ ys.length + beVal base ys) / base ^ ys.length = y := by
          rw [Nat.mul_comm, Nat.mul_add_div hpow, Nat.div_eq_of_lt hys, Nat.add_zero]
        rw [← e1, hv, e2]
      subst hx
      have : beVal base xs = beVal base ys := by omega
      rw [ih ys hlen (fun z hz => h1 z (by simp [hz])) (fun z hz => h2 z (by simp [hz])) this]

theorem natToDigitsBE_length (base m x : Nat) : (natToDigitsBE base m x).length = m := by
  induction m generalizing x with
  | zero => rfl
  | succ m ih => simp [natToDigitsBE, ih]

theorem natToDigitsBE_lt (base m x : Nat) (hb : 0 < base) :
    ∀ d ∈ natToDigitsBE base m x, d < base := by
  induction m generalizing x with
  | zero => intro d hd; simp [natToDigitsBE] at hd
  | succ m ih =>
    intro d hd
    simp only [natToDigitsBE, List.mem_cons] at hd
    rcases hd with h | h
    · rw [h]; exact Nat.mod_lt _ hb
    · exact ih x d h

theorem beVal_natToDigitsBE (base m x : Nat) :
    beVal base (natToDigitsBE base m x) = x % base ^ m := by
  induction m generalizing x with
  | zero => simp [natToDigitsBE, beVal, Nat.mod_one]
  | succ m ih =>
    rw [natToDigitsBE, beVal_cons, natToDigitsBE_length, ih, pow_succ, Nat.mod_mul]
    ring

theorem digitCount_spec (bits n : Nat) (h1 : 1 ≤ bits) :
    8 * n ≤ bits * digitCount bits n ∧ bits * digitCount bits n < 8 * n + bits := by
  have hd := Nat.div_add_mod (8 * n + (bits - 1)) bits
  have hm : (8 * n + (bits - 1)) % bits < bits := Nat.mod_lt _ (by omega)
  unfold digitCount
  omega

theorem padBits_lt (bits n : Nat) (h1 : 1 ≤ bits) : padBits bits n < bits := by
  have := digitCount_spec bits n h1
  unfold padBits
  omega

theorem padBits_eq (bits n : Nat) (h1 : 1 ≤ bits) :
    bits * digitCount bits n = 8 * n + padBits bits n := by
  have := digitCount_spec bits n h1
  unfold padBits
  omega


/-- Single-step conservation for the generic bit-packing machine: a step
preserves the table and the state invariant, emits bytes below 256, and
conserves both the bit count and the big-endian value of the stream. -/
theorem step_spec (st : CustomDecoderState) (d : Nat)
    (hb1 : 1 ≤ st.table.bits_per_char) (hb6 : st.table.bits_per_char ≤ 6)
    (hinv : StateInv st) (hd : d < 2 ^ st.table.bits_per_char) :
    (st.step d).1.table = st.table ∧ StateInv (st.step d).1 ∧
    (∀ b ∈ (st.step d).2.toList, b < 256) ∧
    8 * (st.step d).2.toList.length + (st.step d).1.filled_bits =
      st.filled_bits + st.table.bits_per_char ∧
    beVal 256 (st.step d).2.toList * 2 ^ (st.step d).1.filled_bits +
      (st.step d).1.accum_byte = st.accum_byte * 2 ^ st.table.bits_per_char + d := by
  obtain ⟨hf8, hpf⟩ := hinv
  obtain ⟨e, p, f⟩ := st
  simp only at hf8 hpf hb1 hb6 hd
  set bits := e.bits_per_char with hbits
  by_cases hc1 : f < 8 - bits
  · have hfb : f + bits < 8 := by omega
    have h1 : (p + 1) * 2 ^ bits ≤ 2 ^ f * 2 ^ bits :=
      Nat.mul_le_mul_right _ hpf
    have h2 : (p + 1) * 2 ^ bits = p * 2 ^ bits + 2 ^ bits := by ring
    have h3 : (2 : Nat) ^ f * 2 ^ bits = 2 ^ (f + bits) := (pow_add 2 f bits).symm
    have h4 : (2 : Nat) ^ (f + bits) ≤ 2 ^ 7 := Nat.pow_le_pow_right (by norm_num) (by omega)
    have hsum : p * 2 ^ bits + d < 2 ^ (f + bits) := by omega
    have hsum256 : p * 2 ^ bits + d < 256 := by omega
    have hm1 : (p <<< bits) % 256 = p * 2 ^ bits := by
      rw [Nat.shiftLeft_eq]
      exact Nat.mod_eq_of_lt (by omega)
    simp only [CustomDecoderState.step, if_pos hc1, hm1, Option.toList,
      Nat.mod_eq_of_lt hsum256]
    refine ⟨by trivial, ⟨hfb, hsum⟩, by simp, by simp, ?_⟩
    simp [beVal]
  · by_cases hc2 : f = 8 - bits
    · have hfb : f + bits = 8 := by omega
      have h1 : (p + 1) * 2 ^ bits ≤ 2 ^ f * 2 ^ bits :=
        Nat.mul_le_mul_right _ hpf
      have h2 : (p + 1) * 2 ^ bits = p * 2 ^ bits + 2 ^ bits := by ring
      have h3 : (2 : Nat) ^ f * 2 ^ bits = 256 := by
        rw [← pow_add, hfb]; norm_num
      have hsum : p * 2 ^ bits + d < 256 := by omega
      have hm1 : (p <<< bits) % 256 = p * 2 ^ bits := by
        rw [Nat.shiftLeft_eq]
        exact Nat.mod_eq_of_lt (by omega)
      simp only [CustomDecoderState.step, if_neg hc1, if_pos hc2, hm1, Option.toList,
        Nat.mod_eq_of_lt hsum]
      refine ⟨by trivial, ⟨by norm_num, by norm_num⟩, ?_, ?_, ?_⟩
      · intro b hb
        simp only [List.mem_singleton] at hb
        omega
      · simp only [List.length_singleton]
        omega
      · rw [beVal_cons]
        simp [beVal]
    · have hreq : CustomDecoderState.step ⟨e, p, f⟩ d =
          (⟨e, d % (1 <<< (bits - (8 - f))), bits - (8 - f)⟩,
            some (((p <<< (8 - f)) % 256 + (d >>> (bits - (8 - f)))) % 256)) := by
        simp only [CustomDecoderState.step, if_neg hc1, if_neg hc2]
      rw [hreq]
      have hfb8 : 8 < f + bits := by omega
      have hlv : bits - (8 - f) = f + bits - 8 := by omega
      have h2l : 1 <<< (bits - (8 - f)) = 2 ^ (bits - (8 - f)) := by
        rw [Nat.shiftLeft_eq, Nat.one_mul]
      have hlpos : (0 : Nat) < 2 ^ (bits - (8 - f)) := Nat.pos_pow_of_pos _ (by norm_num)
      have hdl : d >>> (bits - (8 - f)) = d / 2 ^ (bits - (8 - f)) :=
        Nat.shiftRight_eq_div_pow d _
      obtain ⟨q, hq⟩ : ∃ q, d / 2 ^ (bits - (8 - f)) = q := ⟨_, rfl⟩
      have hrl : (8 - f) + (bits - (8 - f)) = bits := by omega
      have hpow : (2 : Nat) ^ (8 - f) * 2 ^ (bits - (8 - f)) = 2 ^ bits := by
        rw [← pow_add, hrl]
      have hdiv : q < 2 ^ (8 - f) := by
        rw [← hq]
        apply (Nat.div_lt_iff_lt_mul hlpos).mpr
        calc d < 2 ^ bits := hd
          _ = 2 ^ (8 - f) * 2 ^ (bits - (8 - f)) := hpow.symm
      have h1 : (p + 1) * 2 ^ (8 - f) ≤ 2 ^ f * 2 ^ (8 - f) := Nat.mul_le_mul_right _ hpf
      have h2 : (p + 1) * 2 ^ (8 - f) = p * 2 ^ (8 - f) + 2 ^ (8 - f) := by ring
      have h3 : (2 : Nat) ^ f * 2 ^ (8 - f) = 256 := by
        rw [← pow_add]
        have hf8' : f + (8 - f) = 8 := by omega
        rw [hf8']; norm_num
      have hsum : p * 2 ^ (8 - f) + q < 256 := by omega
      have hm1 : (p <<< (8 - f)) % 256 = p * 2 ^ (8 - f) := by
        rw [Nat.shiftLeft_eq]
        exact Nat.mod_eq_of_lt (by omega)
      have hout : ((p <<< (8 - f)) % 256 + d >>> (bits - (8 - f))) % 256
          = p * 2 ^ (8 - f) + q := by
        rw [hm1, hdl, hq]
        exact Nat.mod_eq_of_lt hsum
      rw [hout, h2l]
      refine ⟨by trivial, ⟨by simp only; omega, Nat.mod_lt _ hlpos⟩, ?_, ?_, ?_⟩
      · intro b hb
        simp only [Option.toList, List.mem_singleton] at hb
        omega
      · simp only [Option.toList, List.length_singleton]
        omega
      · simp only [Option.toList]
        rw [beVal_cons]
        simp only [List.length_nil, pow_zero, Nat.mul_one]
        have hqd : q * 2 ^ (bits - (8 - f)) + d % 2 ^ (bits - (8 - f)) = d := by
          rw [← hq, Nat.mul_comm]
          exact Nat.div_add_mod d _
        have hexp : (p * 2 ^ (8 - f) + q + beVal 256 []) * 2 ^ (bits - (8 - f)) +
              d % 2 ^ (bits - (8 - f))
            = p * (2 ^ (8 - f) * 2 ^ (bits - (8 - f))) +
              (q * 2 ^ (bits - (8 - f)) + d % 2 ^ (bits - (8 - f))) := by
          show (p * 2 ^ (8 - f) + q + 0) * 2 ^ (bits - (8 - f)) + d % 2 ^ (bits - (8 - f)) = _
          ring
        rw [hexp, hpow, hqd]

theorem beVal_nil (base : Nat) : beVal base [] = 0 := rfl

/-- Combination step for the stream-value conservation argument. -/
theorem conserve_comp (o1 out2 : List Nat) (f1 f2 p p1 p2 bits n d v2 B : Nat)
    (hB : B = 2 ^ bits)
    (hval1 : beVal 256 o1 * 2 ^ f1 + p1 = p * 2 ^ bits + d)
    (hlen2 : 8 * out2.length + f2 = f1 + bits * n)
    (hval2 : beVal 256 out2 * 2 ^ f2 + p2 = p1 * 2 ^ (bits * n) + v2) :
    beVal 256 (o1 ++ out2) * 2 ^ f2 + p2 = p * 2 ^ (bits * (n + 1)) + (d * B ^ n + v2) := by
  have h256 : (256 : Nat) ^ out2.length = 2 ^ (8 * out2.length) := by
    rw [pow_mul]; norm_num
  have hBn : B ^ n = 2 ^ (bits * n) := by rw [hB, ← pow_mul]
  have e1 : (2 : Nat) ^ (8 * out2.length) * 2 ^ f2 = 2 ^ (f1 + bits * n) := by
    rw [← pow_add, hlen2]
  have e2 : (2 : Nat) ^ (f1 + bits * n) = 2 ^ f1 * 2 ^ (bits * n) := pow_add 2 f1 (bits * n)
  have e3 : (2 : Nat) ^ (bits * (n + 1)) = 2 ^ bits * 2 ^ (bits * n) := by
    rw [← pow_add]
    congr 1
    ring
  calc beVal 256 (o1 ++ out2) * 2 ^ f2 + p2
      = beVal 256 o1 * 256 ^ out2.length * 2 ^ f2 + (beVal 256 out2 * 2 ^ f2 + p2) := by
        rw [beVal_append]; ring
    _ = beVal 256 o1 * (2 ^ (8 * out2.length) * 2 ^ f2) + (p1 * 2 ^ (bits * n) + v2) := by
        rw [h256, hval2]; ring
    _ = (beVal 256 o1 * 2 ^ f1 + p1) * 2 ^ (bits * n) + v2 := by
        rw [e1, e2]; ring
    _ = (p * 2 ^ bits + d) * 2 ^ (bits * n) + v2 := by rw [hval1]
    _ = p * 2 ^ (bits * (n + 1)) + (d * B ^ n + v2) := by
        rw [e3, hBn]; ring

theorem stepAll_cons (st : CustomDecoderState) (d : Nat) (ds : List Nat) :
    stepAll st (d :: ds) =
      ((stepAll (st.step d).1 ds).1, (st.step d).2.toList ++ (stepAll (st.step d).1 ds).2) := rfl

/-- Conservation of the bit stream over a digit sequence: the generic
machine preserves its table and invariant, emits bytes `< 256`, and the
emitted bytes together with the final state carry exactly the bits of
the initial state followed by the digits. -/
theorem stepAll_spec (ds : List Nat) : ∀ (st : CustomDecoderState),
    1 ≤ st.table.bits_per_char → st.table.bits_per_char ≤ 6 → StateInv st →
    (∀ d ∈ ds, d < 2 ^ st.table.bits_per_char) →
    (stepAll st ds).1.table = st.table ∧ StateInv (stepAll st ds).1 ∧
    (∀ b ∈ (stepAll st ds).2, b < 256) ∧
    8 * (stepAll st ds).2.length + (stepAll st ds).1.filled_bits =
      st.filled_bits + st.table.bits_per_char * ds.length ∧
    beVal 256 (stepAll st ds).2 * 2 ^ (stepAll st ds).1.filled_bits +
      (stepAll st ds).1.accum_byte =
      st.accum_byte * 2 ^ (st.table.bits_per_char * ds.length) +
        beVal (2 ^ st.table.bits_per_char) ds := by
  induction ds with
  | nil =>
    intro st h1 h6 hinv hds
    refine ⟨rfl, hinv, by simp [stepAll], by simp [stepAll], ?_⟩
    simp [stepAll, beVal_nil]
  | cons d ds ih =>
    intro st h1 h6 hinv hds
    obtain ⟨ht1, hinv1, ho1, hlen1, hval1⟩ :=
      step_spec st d h1 h6 hinv (hds d (by simp))
    have h1' : 1 ≤ (st.step d).1.table.bits_per_char := by rw [ht1]; exact h1
    have h6' : (st.step d).1.table.bits_per_char ≤ 6 := by rw [ht1]; exact h6
    have hds' : ∀ x ∈ ds, x < 2 ^ (st.step d).1.table.bits_per_char := by
      rw [ht1]
      exact fun x hx => hds x (List.mem_cons_of_mem _ hx)
    obtain ⟨ht2, hinv2, ho2, hlen2, hval2⟩ := ih (st.step d).1 h1' h6' hinv1 hds'
    simp only [stepAll_cons]
    refine ⟨by rw [ht2, ht1], hinv2, ?_, ?_, ?_⟩
    · intro b hb
      rcases List.mem_append.mp hb with h | h
      · exact ho1 b h
      · exact ho2 b h
    · rw [List.length_append]
      rw [ht1] at hlen2
      have hmul : st.table.bits_per_char * (d :: ds).length
          = st.table.bits_per_char * ds.length + st.table.bits_per_char := by
        rw [List.length_cons]; ring
      omega
    · rw [ht1] at hlen2 hval2
      rw [beVal_cons, List.length_cons]
      exact conserve_comp ((st.step d).2.toList) ((stepAll (st.step d).1 ds).2)
        ((st.step d).1.filled_bits) ((stepAll (st.step d).1 ds).1.filled_bits)
        (st.accum_byte) ((st.step d).1.accum_byte) ((stepAll (st.step d).1 ds).1.accum_byte)
        (st.table.bits_per_char) (ds.length) d (beVal (2 ^ st.table.bits_per_char) ds)
        (2 ^ st.table.bits_per_char) rfl hval1 hlen2 hval2

/-!  Alphabet-table lemmas. -/

theorem getD_set_ne (l : List Nat) (i j a d : Nat) (h : i ≠ j) :
    (l.set i a).getD j d = l.getD j d := by
  simp [List.getD_eq_getElem?_getD, List.getElem?_set_ne h]

theorem getD_set_self (l : List Nat) (i a d : Nat) (h : i < l.length) :
    (l.set i a).getD i d = a := by
  simp [List.getD_eq_getElem?_getD, List.getElem?_set_self, h]

theorem bitsForLength_spec (len bits : Nat) (h : bitsForLength len = some bits) :
    len = 2 ^ bits ∧ 1 ≤ bits ∧ bits ≤ 6 ∧ Nat.log2 len = bits := by
  have main : len = 2 ^ bits ∧ 1 ≤ bits ∧ bits ≤ 6 := by
    unfold bitsForLength at h
    split_ifs at h with h2 h4 h8 h16 h32 h64 <;>
      simp only [Option.some.injEq] at h <;> subst h <;> subst_vars <;> decide
  refine ⟨main.1, main.2.1, main.2.2, ?_⟩
  rw [main.1, Nat.log2_eq_log_two, Nat.log_pow (by norm_num)]

/-- A successful `buildTable` run over a clean suffix: every processed
character is mapped to its index, other entries are untouched. -/
theorem buildTable_ok (rest : List Nat) : ∀ (index : Nat) (table : List Nat),
    table.length = 128 → index + rest.length ≤ 64 →
    (∀ c ∈ rest, c < 128) → rest.Nodup → (∀ c ∈ rest, table.getD c 0 = 255) →
    ∃ t', buildTable rest index table = .ok t' ∧ t'.length = 128 ∧
      (∀ j (hj : j < rest.length), t'.getD (rest.get ⟨j, hj⟩) 0 = index + j) ∧
      ∀ c, c ∉ rest → c < 128 → t'.getD c 0 = table.getD c 0 := by
  induction rest with
  | nil =>
    intro index table hlen _ _ _ _
    exact ⟨table, rfl, hlen, fun j hj => absurd hj (by simp), fun c _ _ => rfl⟩
  | cons byte rest ih =>
    intro index table hlen hbound hascii hnd hfresh
    have hbyte : byte < 128 := hascii byte (by simp)
    have hbfresh : table.getD byte 0 = 255 := hfresh byte (by simp)
    have hnotmem : byte ∉ rest := (List.nodup_cons.mp hnd).1
    have hnd' : rest.Nodup := (List.nodup_cons.mp hnd).2
    have hset_len : (table.set byte index).length = 128 := by
      rw [List.length_set]; exact hlen
    have hfresh' : ∀ c ∈ rest, (table.set byte index).getD c 0 = 255 := by
      intro c hc
      have hne : byte ≠ c := fun he => hnotmem (he ▸ hc)
      rw [getD_set_ne _ _ _ _ _ hne]
      exact hfresh c (List.mem_cons_of_mem _ hc)
    obtain ⟨t', hbt, hlen', hget, hpres⟩ :=
      ih (index + 1) (table.set byte index) hset_len (by simp at hbound ⊢; omega)
        (fun c hc => hascii c (List.mem_cons_of_mem _ hc)) hnd' hfresh'
    refine ⟨t', ?_, hlen', ?_, ?_⟩
    · simp only [buildTable, if_neg (by omega : ¬ 128 ≤ byte), hbfresh]
      simp only [Encoding.noMapping, ne_eq, not_true_eq_false, if_false, ite_false]
      exact hbt
    · intro j hj
      match j with
      | 0 =>
        show t'.getD byte 0 = index + 0
        rw [hpres byte hnotmem hbyte, getD_set_self _ _ _ _ (by omega)]
        omega
      | j + 1 =>
        show t'.getD (rest.get ⟨j, _⟩) 0 = index + (j + 1)
        rw [hget j (by simpa using hj)]
        omega
    · intro c hc hc128
      have hcb : c ≠ byte := fun he => hc (he ▸ List.mem_cons_self _ _)
      have hcr : c ∉ rest := fun hm => hc (List.mem_cons_of_mem _ hm)
      rw [hpres c hcr hc128, getD_set_ne _ _ _ _ _ (Ne.symm hcb)]

/-- A successful `buildTable` run implies the suffix was clean: all
characters ASCII, fresh in the incoming table, and pairwise distinct. -/
theorem buildTable_ok_inv (rest : List Nat) : ∀ (index : Nat) (table : List Nat) (t' : List Nat),
    table.length = 128 → index + rest.length ≤ 64 →
    buildTable rest index table = .ok t' →
    (∀ c ∈ rest, c < 128 ∧ table.getD c 0 = 255) ∧ rest.Nodup := by
  induction rest with
  | nil =>
    intro index table t' _ _ _
    exact ⟨fun c hc => absurd hc (by simp), List.nodup_nil⟩
  | cons byte rest ih =>
    intro index table t' hlen hbound hbt
    simp only [buildTable] at hbt
    by_cases hge : 128 ≤ byte
    · rw [if_pos hge] at hbt; cases hbt
    rw [if_neg hge] at hbt
    by_cases hdup : table.getD byte 0 ≠ Encoding.noMapping
    · rw [if_pos hdup] at hbt; cases hbt
    rw [if_neg hdup] at hbt
    simp only [Encoding.noMapping, not_not] at hdup
    have hset_len : (table.set byte index).length = 128 := by
      rw [List.length_set]; exact hlen
    obtain ⟨hclean, hnd⟩ :=
      ih (index + 1) (table.set byte index) t' hset_len (by simp at hbound ⊢; omega) hbt
    have hbne : byte ∉ rest := by
      intro hm
      have := (hclean byte hm).2
      rw [getD_set_self _ _ _ _ (by omega)] at this
      simp at hbound
      omega
    refine ⟨?_, List.nodup_cons.mpr ⟨hbne, hnd⟩⟩
    intro c hc
    rcases List.mem_cons.mp hc with he | hm
    · subst he; exact ⟨by omega, hdup⟩
    · have hcb : byte ≠ c := fun he => hbne (he ▸ hm)
      have := hclean c hm
      rw [getD_set_ne _ _ _ _ _ hcb] at this
      exact ⟨this.1, this.2⟩

/-- Characterization of a successfully built encoding: the length is a
power of two with `bits_per_char` bits, the characters are distinct
ASCII, each alphabet character maps to its index, and all other entries
are unmapped. -/
theorem Encoding_new_spec (a : List Nat) (e : Encoding) (h : Encoding.new a = .ok e) :
    a.length = 2 ^ e.bits_per_char ∧ 1 ≤ e.bits_per_char ∧ e.bits_per_char ≤ 6 ∧
    e.table.length = 128 ∧ (∀ c ∈ a, c < 128) ∧ a.Nodup ∧
    (∀ j (hj : j < a.length), e.table.getD (a.get ⟨j, hj⟩) 0 = j) ∧
    (∀ c, c ∉ a → c < 128 → e.table.getD c 0 = 255) := by
  unfold Encoding.new at h
  cases hbfl : bitsForLength a.length with
  | none => rw [hbfl] at h; cases h
  | some bits =>
    rw [hbfl] at h
    obtain ⟨hlen2, hb1, hb6, _⟩ := bitsForLength_spec a.length bits hbfl
    have hbound : 0 + a.length ≤ 64 := by
      have : (2 : Nat) ^ bits ≤ 2 ^ 6 := Nat.pow_le_pow_right (by norm_num) hb6
      omega
    have hreplen : (List.replicate 128 Encoding.noMapping).length = 128 :=
      List.length_replicate 128 _
    cases hbt : buildTable a 0 (List.replicate 128 Encoding.noMapping) with
    | error e' => rw [hbt] at h; cases h
    | ok t =>
      rw [hbt] at h
      have he : e = { table := t, bits_per_char := bits } := by
        cases h; rfl
      subst he
      obtain ⟨hclean, hnd⟩ := buildTable_ok_inv a 0 _ t hreplen hbound hbt
      have hascii : ∀ c ∈ a, c < 128 := fun c hc => (hclean c hc).1
      have hfresh : ∀ c ∈ a, (List.replicate 128 Encoding.noMapping).getD c 0 = 255 := by
        intro c hc
        rw [List.getD_eq_getElem?_getD, List.getElem?_replicate]
        simp [hascii c hc, Encoding.noMapping]
      obtain ⟨t', hbt', hlen', hget, hpres⟩ :=
        buildTable_ok a 0 (List.replicate 128 Encoding.noMapping) hreplen hbound hascii hnd hfresh
      rw [hbt] at hbt'
      have ht' : t' = t := by cases hbt'; rfl
      subst ht'
      refine ⟨hlen2, hb1, hb6, hlen', hascii, hnd, ?_, ?_⟩
      · intro j hj
        have h0 := hget j hj
        rw [Nat.zero_add] at h0
        exact h0
      · intro c hc hc128
        rw [hpres c hc hc128, List.getD_eq_getElem?_getD, List.getElem?_replicate]
        simp [hc128, Encoding.noMapping]

/-- Looking up the `j`-th alphabet character yields digit `j`. -/
theorem lookup_get (a : List Nat) (e : Encoding) (h : Encoding.new a = .ok e)
    (j : Nat) (hj : j < a.length) : e.lookup (a.get ⟨j, hj⟩) = .ok j := by
  obtain ⟨hlen2, hb1, hb6, htlen, hascii, _, hget, _⟩ := Encoding_new_spec a e h
  have hc128 : a.get ⟨j, hj⟩ < 128 := hascii _ (List.get_mem a j hj)
  have hlt : a.get ⟨j, hj⟩ < e.table.length := by omega
  have hj64 : j < 64 := by
    have : (2 : Nat) ^ e.bits_per_char ≤ 2 ^ 6 := Nat.pow_le_pow_right (by norm_num) hb6
    omega
  unfold Encoding.lookup
  rw [List.getElem?_eq_getElem hlt]
  have hv : e.table[(a.get ⟨j, hj⟩ : Nat)] = j := by
    rw [← List.getD_eq_getElem e.table 0 hlt]
    exact hget j hj
  rw [hv]
  simp [Encoding.noMapping]
  omega

/-- Looking up an ASCII byte that is not an alphabet character fails
with the unmapped-character error. -/
theorem lookup_not_mem (a : List Nat) (e : Encoding) (h : Encoding.new a = .ok e)
    (c : Nat) (hc : c ∉ a) (hc128 : c < 128) :
    e.lookup c = .error (.unmappedChar c) := by
  obtain ⟨_, _, _, htlen, _, _, _, hun⟩ := Encoding_new_spec a e h
  have hlt : c < e.table.length := by omega
  unfold Encoding.lookup
  rw [List.getElem?_eq_getElem hlt]
  have hv : e.table[c] = 255 := by
    rw [← List.getD_eq_getElem e.table 0 hlt]
    exact hun c hc hc128
  rw [hv]
  simp [Encoding.noMapping]

/-- Looking up a byte `≥ 128` is an out-of-bounds table access. -/
theorem lookup_oob (a : List Nat) (e : Encoding) (h : Encoding.new a = .ok e)
    (c : Nat) (hc : 128 ≤ c) : e.lookup c = .error (.tableIndexOutOfBounds c) := by
  obtain ⟨_, _, _, htlen, _, _, _, _⟩ := Encoding_new_spec a e h
  unfold Encoding.lookup
  rw [List.getElem?_eq_none (by omega)]

/-- Any successful lookup yields a digit below the alphabet length. -/
theorem lookup_lt (a : List Nat) (e : Encoding) (h : Encoding.new a = .ok e)
    (c m : Nat) (hm : e.lookup c = .ok m) : m < 2 ^ e.bits_per_char := by
  obtain ⟨hlen2, _, _, htlen, hascii, hnd, hget, hun⟩ := Encoding_new_spec a e h
  by_cases hc128 : c < 128
  · by_cases hmem : c ∈ a
    · obtain ⟨⟨j, hj⟩, hgj⟩ := List.mem_iff_get.mp hmem
      rw [← hgj, lookup_get a e h j hj] at hm
      cases hm
      omega
    · rw [lookup_not_mem a e h c hmem hc128] at hm
      cases hm
  · rw [lookup_oob a e h c (by omega)] at hm
    cases hm

/-!  Driver-loop correspondence lemmas. -/

theorem drop_eq_getD_cons (l : List Nat) (i : Nat) (h : i < l.length) :
    l.drop i = l.getD i 0 :: l.drop (i + 1) := by
  rw [List.drop_eq_getElem_cons h, List.getD_eq_getElem l 0 h]

theorem writeAll_eq (out : List Nat) : ∀ (cap : Nat) (bytes : List Nat) (k : Nat),
    bytes.length = cap → k + out.length ≤ cap →
    writeAll cap bytes k out = bytes.take k ++ out ++ bytes.drop (k + out.length) := by
  induction out with
  | nil =>
    intro cap bytes k hlen hle
    show bytes = _
    simp
  | cons b bs ih =>
    intro cap bytes k hlen hle
    have hbs : k + (bs.length + 1) ≤ cap := by simpa using hle
    have hk : k < cap := by omega
    show writeAll cap (if k < cap then bytes.set k b else bytes) (k + 1) bs = _
    rw [if_pos hk,
      ih cap (bytes.set k b) (k + 1) (by rw [List.length_set]; exact hlen) (by omega)]
    have hset : bytes.set k b = bytes.take k ++ b :: bytes.drop (k + 1) := by
      rw [List.set_eq_take_append_cons_drop, if_pos (by omega)]
    have hlt : (bytes.take k).length = k := by
      rw [List.length_take]
      omega
    have h1 : (bytes.set k b).take (k + 1) = bytes.take k ++ [b] := by
      rw [hset, List.take_append_eq_append_take, List.take_of_length_le (by omega), hlt]
      have : k + 1 - k = 1 := by omega
      rw [this]
      rfl
    have h2 : (bytes.set k b).drop (k + 1 + bs.length) = bytes.drop (k + 1 + bs.length) :=
      List.drop_set_of_lt b bytes (by omega)
    rw [h1, h2]
    have harr : k + 1 + bs.length = k + (bs.length + 1) := by omega
    rw [harr]
    simp

/-- Writing exactly `cap` bytes from position 0 into the zero-filled
buffer reproduces the byte list. -/
theorem writeAll_exact (out : List Nat) (cap : Nat) (hlen : out.length = cap) :
    writeAll cap (List.replicate cap 0) 0 out = out := by
  rw [writeAll_eq out cap _ 0 (List.length_replicate cap 0) (by omega)]
  simp [hlen]

theorem runList_cons (st : DecoderState) (c : Nat) (cs : List Nat) :
    runList st (c :: cs) =
      match st.update c with
      | .error e => .error e
      | .ok (st1, o) =>
        match runList st1 cs with
        | .error e => .error e
        | .ok (st2, out) => .ok (st2, o.toList ++ out) := rfl

theorem runList_cons_err (st : DecoderState) (c : Nat) (cs : List Nat) (e : DecodeError)
    (h : st.update c = .error e) : runList st (c :: cs) = .error e := by
  rw [runList_cons, h]

theorem runList_cons_ok (st : DecoderState) (c : Nat) (cs : List Nat)
    (st1 : DecoderState) (o : Option Nat) (h : st.update c = .ok (st1, o)) :
    runList st (c :: cs) =
      match runList st1 cs with
      | .error e => .error e
      | .ok (st2, out) => .ok (st2, o.toList ++ out) := by
  rw [runList_cons, h]

/-- The driver loop without a skip policy is `runList` on the remaining
input, writing emitted bytes through `writeAll`. -/
theorem loopGo_none (input : List Nat) (cap : Nat) : ∀ (fuel i : Nat) (st : DecoderState)
    (bytes : List Nat) (k : Nat), input.length - i ≤ fuel →
    loopGo none input cap fuel i st bytes k =
      match runList st (input.drop i) with
      | .error e => .error e
      | .ok (st', out) => .ok (writeAll cap bytes k out, k + out.length, st') := by
  intro fuel
  induction fuel with
  | zero =>
    intro i st bytes k hfuel
    have hi : input.length ≤ i := by omega
    rw [List.drop_eq_nil_of_le hi]
    simp [loopGo, runList, writeAll]
  | succ fuel ih =>
    intro i st bytes k hfuel
    by_cases hi : i < input.length
    · rw [drop_eq_getD_cons input i hi]
      simp only [loopGo, if_pos hi]
      rw [if_neg (show ¬ (i ≠ i) from fun h => h rfl)]
      cases hup : st.update (input.getD i 0) with
      | error e => rw [runList_cons_err _ _ _ _ hup]
      | ok p =>
        obtain ⟨st1, out1⟩ := p
        rw [runList_cons_ok _ _ _ _ _ hup]
        cases out1 with
        | none =>
          show loopGo none input cap fuel (i + 1) st1 bytes k = _
          rw [ih (i + 1) st1 bytes k (by omega)]
          cases runList st1 (input.drop (i + 1)) with
          | error e => rfl
          | ok q => rfl
        | some byte =>
          show loopGo none input cap fuel (i + 1) st1
            (if k < cap then bytes.set k byte else bytes) (k + 1) = _
          rw [ih (i + 1) st1 (if k < cap then bytes.set k byte else bytes) (k + 1) (by omega)]
          cases runList st1 (input.drop (i + 1)) with
          | error e => rfl
          | ok q =>
            obtain ⟨st2, out2⟩ := q
            show Except.ok (writeAll cap (if k < cap then bytes.set k byte else bytes)
                (k + 1) out2, k + 1 + out2.length, st2) =
              Except.ok (writeAll cap bytes k (byte :: out2), k + (byte :: out2).length, st2)
            have harr : k + 1 + out2.length = k + (byte :: out2).length := by
              rw [List.length_cons]; omega
            rw [harr]
            rfl
    · have hdrop : input.drop i = [] := List.drop_eq_nil_of_le (by omega)
      rw [hdrop]
      simp only [loopGo, if_neg hi]
      simp [runList, writeAll]

/-- `do_decode` without skipper, phrased through `runList`. -/
theorem do_decode_none (d : Decoder) (input : List Nat) (N : Nat) :
    d.do_decode input none N =
      match runList d.new_state input with
      | .error e => .error e
      | .ok (st', out) =>
        if N < out.length then .error (.outputOverflow out.length N)
        else if out.length ≠ N then .error (.outputUnderflow out.length N)
        else if st'.is_final then .ok (writeAll N (List.replicate N 0) 0 out)
        else .error .leftoverState := by
  unfold Decoder.do_decode
  rw [loopGo_none input N input.length 0 _ _ 0 (by omega), List.drop_zero]
  cases runList d.new_state input with
  | error e => rfl
  | ok q =>
    obtain ⟨st', out⟩ := q
    simp only [Nat.zero_add]

theorem step_table (st : CustomDecoderState) (d : Nat) : (st.step d).1.table = st.table := by
  simp only [CustomDecoderState.step]
  split_ifs <;> rfl

theorem runList_append (xs ys : List Nat) : ∀ st, runList st (xs ++ ys) =
    match runList st xs with
    | .error e => .error e
    | .ok (st1, o1) =>
      match runList st1 ys with
      | .error e => .error e
      | .ok (st2, o2) => .ok (st2, o1 ++ o2) := by
  induction xs with
  | nil =>
    intro st
    show runList st ys = match runList st ys with
      | .error e => .error e
      | .ok (st2, o2) => .ok (st2, [] ++ o2)
    cases runList st ys with
    | error e => rfl
    | ok q =>
      obtain ⟨st2, o2⟩ := q
      rfl
  | cons c cs ih =>
    intro st
    rw [List.cons_append]
    cases hup : st.update c with
    | error e =>
      rw [runList_cons_err _ _ _ _ hup, runList_cons_err _ _ _ _ hup]
    | ok p =>
      obtain ⟨st1, o⟩ := p
      rw [runList_cons_ok _ _ _ _ _ hup, ih st1]
      conv_rhs => rw [runList_cons_ok _ _ _ _ _ hup]
      cases runList st1 cs with
      | error e => rfl
      | ok q =>
        obtain ⟨st2, o1⟩ := q
        show (match (match runList st2 ys with
            | Except.error e => Except.error e
            | Except.ok (st2', o2) => Except.ok (st2', o1 ++ o2) :
              Except DecodeError (DecoderState × List Nat)) with
          | Except.error e => Except.error e
          | Except.ok (st2', out) =>
            (Except.ok (st2', o.toList ++ out) : Except DecodeError (DecoderState × List Nat))) =
          match runList st2 ys with
          | Except.error e => Except.error e
          | Except.ok (st2', o2) => Except.ok (st2', o.toList ++ o1 ++ o2)
        cases runList st2 ys with
        | error e => rfl
        | ok r =>
          obtain ⟨st3, o2⟩ := r
          show Except.ok (st3, o.toList ++ (o1 ++ o2)) = Except.ok (st3, o.toList ++ o1 ++ o2)
          rw [List.append_assoc]

theorem runCustom_cons (st : CustomDecoderState) (c : Nat) (cs : List Nat) :
    runCustom st (c :: cs) =
      match st.update c with
      | .error e => .error e
      | .ok (st1, o) =>
        match runCustom st1 cs with
        | .error e => .error e
        | .ok (st2, out) => .ok (st2, o.toList ++ out) := rfl

theorem runCustom_cons_err (st : CustomDecoderState) (c : Nat) (cs : List Nat)
    (e : DecodeError) (h : st.update c = .error e) : runCustom st (c :: cs) = .error e := by
  rw [runCustom_cons, h]

theorem runCustom_cons_ok (st : CustomDecoderState) (c : Nat) (cs : List Nat)
    (st1 : CustomDecoderState) (o : Option Nat) (h : st.update c = .ok (st1, o)) :
    runCustom st (c :: cs) =
      match runCustom st1 cs with
      | .error e => .error e
      | .ok (st2, out) => .ok (st2, o.toList ++ out) := by
  rw [runCustom_cons, h]

theorem update_custom (st : CustomDecoderState) (c : Nat) :
    (DecoderState.custom st).update c =
      match st.update c with
      | .error e => .error e
      | .ok (st', out) => .ok (.custom st', out) := rfl

theorem update_base64 (st : CustomDecoderState) (c : Nat) :
    (DecoderState.base64 st).update c =
      if c = 61 then .ok (.base64 st, none)
      else
        match st.update c with
        | .error e => .error e
        | .ok (st', out) => .ok (.base64 st', out) := rfl

/-- `runList` on the custom variant is `runCustom` with the variant tag. -/
theorem runList_custom (cs : List Nat) : ∀ st, runList (.custom st) cs =
    match runCustom st cs with
    | .error e => .error e
    | .ok (s, o) => .ok (.custom s, o) := by
  induction cs with
  | nil => intro st; rfl
  | cons c cs ih =>
    intro st
    cases hup : st.update c with
    | error e =>
      have h1 : (DecoderState.custom st).update c = .error e := by
        rw [update_custom, hup]
      rw [runList_cons_err _ _ _ _ h1, runCustom_cons_err _ _ _ _ hup]
    | ok p =>
      obtain ⟨st1, o⟩ := p
      have h1 : (DecoderState.custom st).update c = .ok (.custom st1, o) := by
        rw [update_custom, hup]
      rw [runList_cons_ok _ _ _ _ _ h1, runCustom_cons_ok _ _ _ _ _ hup, ih st1]
      cases runCustom st1 cs with
      | error e => rfl
      | ok q =>
        obtain ⟨s2, o2⟩ := q
        rfl

/-- `runList` on the Base64 variant, for inputs containing no `=` byte,
is `runCustom` with the variant tag. -/
theorem runList_base64 (cs : List Nat) : ∀ st, (∀ c ∈ cs, c ≠ 61) →
    runList (.base64 st) cs =
      match runCustom st cs with
      | .error e => .error e
      | .ok (s, o) => .ok (.base64 s, o) := by
  induction cs with
  | nil => intro st _; rfl
  | cons c cs ih =>
    intro st hne
    have hc61 : c ≠ 61 := hne c (by simp)
    cases hup : st.update c with
    | error e =>
      have h1 : (DecoderState.base64 st).update c = .error e := by
        rw [update_base64, if_neg hc61, hup]
      rw [runList_cons_err _ _ _ _ h1, runCustom_cons_err _ _ _ _ hup]
    | ok p =>
      obtain ⟨st1, o⟩ := p
      have h1 : (DecoderState.base64 st).update c = .ok (.base64 st1, o) := by
        rw [update_base64, if_neg hc61, hup]
      rw [runList_cons_ok _ _ _ _ _ h1, runCustom_cons_ok _ _ _ _ _ hup,
        ih st1 (fun x hx => hne x (List.mem_cons_of_mem _ hx))]
      cases runCustom st1 cs with
      | error e => rfl
      | ok q =>
        obtain ⟨s2, o2⟩ := q
        rfl

/-- Processing a run of `=` bytes in a Base64 state is a no-op. -/
theorem runList_base64_pad (k : Nat) (st : CustomDecoderState) :
    runList (.base64 st) (List.replicate k 61) = .ok (.base64 st, []) := by
  induction k with
  | zero => rfl
  | succ k ih =>
    show runList (.base64 st) (61 :: List.replicate k 61) = _
    rw [runList_cons_ok _ _ _ (.base64 st) none (by rfl), ih]
    rfl

/-- Feeding characters that look up to given digits is `stepAll` on the
digits. -/
theorem runCustom_stepAll (ds : List Nat) (enc : Nat → Nat) : ∀ (st : CustomDecoderState),
    (∀ d ∈ ds, st.table.lookup (enc d) = .ok d) →
    runCustom st (ds.map enc) = .ok (stepAll st ds) := by
  induction ds with
  | nil => intro st _; rfl
  | cons d ds ih =>
    intro st hlk
    rw [List.map_cons]
    have hup : st.update (enc d) = .ok ((st.step d).1, (st.step d).2) := by
      unfold CustomDecoderState.update
      rw [hlk d (by simp)]
    have hlk' : ∀ x ∈ ds, (st.step d).1.table.lookup (enc x) = .ok x := by
      rw [step_table]
      exact fun x hx => hlk x (List.mem_cons_of_mem _ hx)
    rw [runCustom_cons_ok _ _ _ _ _ hup, ih (st.step d).1 hlk', stepAll_cons]

/-!  Round-trip lemmas. -/

theorem update_hex (st : Option Nat) (c : Nat) :
    (DecoderState.hex st).update c =
      match hexUpdate st c with
      | .error e => .error e
      | .ok (st', out) => .ok (.hex st', out) := rfl

theorem hexByteValue_hexDigitChar : ∀ v, v < 16 → hexByteValue (hexDigitChar v) = .ok v := by
  decide

/-- Running the hex machine over the hex encoding of a byte list yields
back the bytes and ends with no pending nibble. -/
theorem runList_hex_encode (b : List Nat) (hb : ∀ x ∈ b, x < 256) :
    runList (.hex none) (encodeHex b) = .ok (.hex none, b) := by
  induction b with
  | nil => rfl
  | cons x xs ih =>
    have hx : x < 256 := hb x (by simp)
    have hhi : hexByteValue (hexDigitChar (x / 16)) = .ok (x / 16) :=
      hexByteValue_hexDigitChar _ (by omega)
    have hlo : hexByteValue (hexDigitChar (x % 16)) = .ok (x % 16) :=
      hexByteValue_hexDigitChar _ (Nat.mod_lt _ (by norm_num))
    have hu1 : hexUpdate none (hexDigitChar (x / 16)) = .ok (some (x / 16), none) := by
      unfold hexUpdate
      rw [hhi]
    have hval : ((x / 16) <<< 4 % 256 + x % 16) % 256 = x := by
      rw [Nat.shiftLeft_eq]
      have hd : x / 16 * 2 ^ 4 = 16 * (x / 16) := by ring
      have hdm := Nat.div_add_mod x 16
      have hm16 : x % 16 < 16 := Nat.mod_lt _ (by norm_num)
      rw [Nat.mod_eq_of_lt (by omega), Nat.mod_eq_of_lt (by omega)]
      omega
    have hu2 : hexUpdate (some (x / 16)) (hexDigitChar (x % 16)) = .ok (none, some x) := by
      unfold hexUpdate
      rw [hlo]
      show Except.ok ((none : Option Nat), some (((x / 16) <<< 4 % 256 + x % 16) % 256)) = _
      rw [hval]
    have h1 : (DecoderState.hex none).update (hexDigitChar (x / 16)) =
        .ok (.hex (some (x / 16)), none) := by
      rw [update_hex, hu1]
    have h2 : (DecoderState.hex (some (x / 16))).update (hexDigitChar (x % 16)) =
        .ok (.hex none, some x) := by
      rw [update_hex, hu2]
    show runList (.hex none)
      (hexDigitChar (x / 16) :: hexDigitChar (x % 16) :: encodeHex xs) = _
    rw [runList_cons_ok _ _ _ _ _ h1, runList_cons_ok _ _ _ _ _ h2,
      ih (fun y hy => hb y (List.mem_cons_of_mem _ hy))]
    rfl

theorem new_state_table (e : Encoding) : (CustomDecoderState.new e).table = e := rfl

theorem new_state_inv (e : Encoding) : StateInv (CustomDecoderState.new e) := by
  constructor <;> simp [CustomDecoderState.new]

/-- Running the generic machine from the fresh state over the chunk
digits of a byte list emits exactly those bytes and ends with a zero
accumulator. -/
theorem stepAll_encode (a : List Nat) (e : Encoding) (hnew : Encoding.new a = .ok e)
    (b : List Nat) (hb : ∀ x ∈ b, x < 256) :
    (stepAll (CustomDecoderState.new e) (encodeDigits e.bits_per_char b)).2 = b ∧
    (stepAll (CustomDecoderState.new e) (encodeDigits e.bits_per_char b)).1.accum_byte = 0 := by
  obtain ⟨hlen2, hb1, hb6, _, _, _, _, _⟩ := Encoding_new_spec a e hnew
  set bits := e.bits_per_char with hbits
  set n := b.length with hn
  set m := digitCount bits n with hm
  set pad := padBits bits n with hpad
  set X := beVal 256 b * 2 ^ pad with hX
  have hpow_pos : (0 : Nat) < 2 ^ bits := Nat.pos_pow_of_pos _ (by norm_num)
  have hppos : (0 : Nat) < 2 ^ pad := Nat.pos_pow_of_pos _ (by norm_num)
  have hds_lt : ∀ d ∈ encodeDigits bits b, d < 2 ^ bits := by
    intro d hd
    exact natToDigitsBE_lt (2 ^ bits) m X hpow_pos d hd
  have hlen_ds : (encodeDigits bits b).length = m := natToDigitsBE_length _ _ _
  have hbX : beVal 256 b < 2 ^ (8 * n) := by
    have h8 : (256 : Nat) ^ n = 2 ^ (8 * n) := by
      rw [pow_mul]; norm_num
    rw [← h8]
    exact beVal_lt 256 b (by norm_num) hb
  have hpe : bits * m = 8 * n + pad := padBits_eq bits n hb1
  have hX_lt : X < (2 ^ bits) ^ m := by
    have h1 : (2 : Nat) ^ (8 * n) * 2 ^ pad = 2 ^ (8 * n + pad) := (pow_add 2 _ _).symm
    have h2 : ((2 : Nat) ^ bits) ^ m = 2 ^ (bits * m) := by rw [← pow_mul]
    have h3 : X < 2 ^ (8 * n) * 2 ^ pad := mul_lt_mul_of_pos_right hbX hppos
    rw [h2, hpe, ← h1]
    exact h3
  have hbeval : beVal (2 ^ bits) (encodeDigits bits b) = X := by
    rw [encodeDigits, beVal_natToDigitsBE]
    exact Nat.mod_eq_of_lt hX_lt
  obtain ⟨ht, ⟨hf8, hpf⟩, houts, hlen, hval⟩ :=
    stepAll_spec (encodeDigits bits b) (CustomDecoderState.new e)
      (by rw [new_state_table]; exact hb1) (by rw [new_state_table]; exact hb6)
      (new_state_inv e) (by rw [new_state_table]; exact hds_lt)
  rw [new_state_table] at hlen hval
  rw [← hbits] at hlen hval
  have hst0f : (CustomDecoderState.new e).filled_bits = 0 := rfl
  have hst0p : (CustomDecoderState.new e).accum_byte = 0 := rfl
  rw [hst0f] at hlen
  rw [hst0p] at hval
  rw [hlen_ds] at hlen hval
  rw [hbeval] at hval
  have hpad8 : pad < 8 := by
    have := padBits_lt bits n hb1
    omega
  rw [hpe] at hlen
  -- lengths: 8 * |out| + f' = 8 * n + pad with f' < 8 and pad < 8
  have hf_eq : (stepAll (CustomDecoderState.new e) (encodeDigits bits b)).1.filled_bits = pad := by
    omega
  have hlen_out : (stepAll (CustomDecoderState.new e) (encodeDigits bits b)).2.length = n := by
    omega
  rw [hf_eq] at hval hpf
  rw [Nat.zero_mul, Nat.zero_add] at hval
  -- value: beVal out * 2^pad + p' = beVal b * 2^pad
  have hq1 : (beVal 256 (stepAll (CustomDecoderState.new e) (encodeDigits bits b)).2 * 2 ^ pad +
      (stepAll (CustomDecoderState.new e) (encodeDigits bits b)).1.accum_byte) / 2 ^ pad =
      beVal 256 (stepAll (CustomDecoderState.new e) (encodeDigits bits b)).2 := by
    rw [Nat.mul_comm, Nat.mul_add_div hppos, Nat.div_eq_of_lt hpf, Nat.add_zero]
  have hq2 : X / 2 ^ pad = beVal 256 b := by
    rw [hX, Nat.mul_div_cancel _ hppos]
  have hr1 : (beVal 256 (stepAll (CustomDecoderState.new e) (encodeDigits bits b)).2 * 2 ^ pad +
      (stepAll (CustomDecoderState.new e) (encodeDigits bits b)).1.accum_byte) % 2 ^ pad =
      (stepAll (CustomDecoderState.new e) (encodeDigits bits b)).1.accum_byte := by
    rw [Nat.mul_comm, Nat.mul_add_mod]
    exact Nat.mod_eq_of_lt hpf
  have hr2 : X % 2 ^ pad = 0 := by
    rw [hX]
    exact Nat.mul_mod_left _ _
  have hbe_eq : beVal 256 (stepAll (CustomDecoderState.new e) (encodeDigits bits b)).2 =
      beVal 256 b := by
    rw [← hq1, hval, hq2]
  have hacc : (stepAll (CustomDecoderState.new e) (encodeDigits bits b)).1.accum_byte = 0 := by
    rw [← hr1, hval, hr2]
  refine ⟨?_, hacc⟩
  exact beVal_inj 256 (by norm_num) _ b (by rw [hlen_out, hn]) houts hb hbe_eq

theorem runCustom_encode (a : List Nat) (e : Encoding) (hnew : Encoding.new a = .ok e)
    (b : List Nat) :
    runCustom (CustomDecoderState.new e) (encodeWith a e.bits_per_char b) =
      .ok (stepAll (CustomDecoderState.new e) (encodeDigits e.bits_per_char b)) := by
  obtain ⟨hlen2, _, _, _, _, _, _, _⟩ := Encoding_new_spec a e hnew
  unfold encodeWith
  apply runCustom_stepAll
  intro d hd
  have hdlt : d < 2 ^ e.bits_per_char :=
    natToDigitsBE_lt _ _ _ (Nat.pos_pow_of_pos _ (by norm_num)) d hd
  have hda : d < a.length := by omega
  have hgd : a.getD d 0 = a.get ⟨d, hda⟩ := by
    rw [List.getD_eq_getElem a 0 hda]
    rfl
  rw [new_state_table, hgd]
  exact lookup_get a e hnew d hda

/-- If the run over the whole input succeeds with a final state, the
decode succeeds with exactly the emitted bytes. -/
theorem do_decode_of_runList (d : Decoder) (input : List Nat) (b : List Nat)
    (st' : DecoderState) (hrl : runList d.new_state input = .ok (st', b))
    (hfin : st'.is_final = true) : d.do_decode input none b.length = .ok b := by
  rw [do_decode_none, hrl]
  show (if b.length < b.length then Except.error (DecodeError.outputOverflow b.length b.length)
      else if b.length ≠ b.length then
        Except.error (DecodeError.outputUnderflow b.length b.length)
      else if st'.is_final then Except.ok (writeAll b.length (List.replicate b.length 0) 0 b)
      else Except.error DecodeError.leftoverState) = Except.ok b
  rw [if_neg (lt_irrefl _), if_neg (fun h => h rfl), if_pos hfin,
    writeAll_exact b b.length rfl]

theorem decode_hex_roundtrip (b : List Nat) (hb : ∀ x ∈ b, x < 256) :
    Decoder.hex.do_decode (encodeHex b) none b.length = .ok b := by
  apply do_decode_of_runList _ _ _ (.hex none)
  · exact runList_hex_encode b hb
  · rfl

theorem decode_custom_roundtrip (a : List Nat) (e : Encoding)
    (hnew : Encoding.new a = .ok e) (b : List Nat) (hb : ∀ x ∈ b, x < 256) :
    (Decoder.custom e).do_decode (encodeWith a e.bits_per_char b) none b.length = .ok b := by
  obtain ⟨hout, hacc⟩ := stepAll_encode a e hnew b hb
  have hrl : runList (Decoder.custom e).new_state (encodeWith a e.bits_per_char b) =
      .ok (.custom (stepAll (CustomDecoderState.new e) (encodeDigits e.bits_per_char b)).1,
        (stepAll (CustomDecoderState.new e) (encodeDigits e.bits_per_char b)).2) := by
    show runList (.custom (CustomDecoderState.new e)) _ = _
    rw [runList_custom, runCustom_encode a e hnew b]
  have hfin : (DecoderState.custom
      (stepAll (CustomDecoderState.new e) (encodeDigits e.bits_per_char b)).1).is_final
      = true := by
    show ((stepAll (CustomDecoderState.new e) (encodeDigits e.bits_per_char b)).1.accum_byte
      == 0) = true
    rw [hacc]
    rfl
  have hdd := do_decode_of_runList _ _ _ _ hrl hfin
  rw [hout] at hdd
  exact hdd

theorem runList_base64_encode (a : List Nat) (e : Encoding) (hnew : Encoding.new a = .ok e)
    (hb6 : e.bits_per_char = 6) (b : List Nat)
    (hne : ∀ d, d < 64 → a.getD d 0 ≠ 61) :
    runList (.base64 (CustomDecoderState.new e)) (encodeBase64With a b) =
      .ok (.base64 (stepAll (CustomDecoderState.new e) (encodeDigits 6 b)).1,
        (stepAll (CustomDecoderState.new e) (encodeDigits 6 b)).2) := by
  unfold encodeBase64With
  rw [runList_append]
  have hchars_ne : ∀ c ∈ encodeWith a 6 b, c ≠ 61 := by
    intro c hc
    unfold encodeWith at hc
    obtain ⟨d, hd, rfl⟩ := List.mem_map.mp hc
    have hd64 : d < 2 ^ 6 :=
      natToDigitsBE_lt _ _ _ (Nat.pos_pow_of_pos _ (by norm_num)) d hd
    exact hne d (by omega)
  rw [runList_base64 _ _ hchars_ne]
  have hrc : runCustom (CustomDecoderState.new e) (encodeWith a 6 b) =
      .ok (stepAll (CustomDecoderState.new e) (encodeDigits 6 b)) := by
    have h0 := runCustom_encode a e hnew b
    rw [hb6] at h0
    exact h0
  rw [hrc]
  show (match runList
      (.base64 (stepAll (CustomDecoderState.new e) (encodeDigits 6 b)).1)
      (List.replicate ((4 - (encodeDigits 6 b).length % 4) % 4) 61) with
    | Except.error e => (Except.error e : Except DecodeError (DecoderState × List Nat))
    | Except.ok (st2, o2) =>
      Except.ok (st2, (stepAll (CustomDecoderState.new e) (encodeDigits 6 b)).2 ++ o2)) = _
  rw [runList_base64_pad]
  show Except.ok (_, (stepAll (CustomDecoderState.new e) (encodeDigits 6 b)).2 ++ []) = _
  rw [List.append_nil]

theorem Encoding_new_base64 : Encoding.new base64Alphabet = .ok Encoding.BASE64 := by decide

theorem Encoding_new_base64_url :
    Encoding.new base64UrlAlphabet = .ok Encoding.BASE64_URL := by decide

theorem decode_base64_roundtrip (b : List Nat) (hb : ∀ x ∈ b, x < 256) :
    Decoder.base64.do_decode (encodeBase64With base64Alphabet b) none b.length = .ok b := by
  obtain ⟨hout, hacc⟩ := stepAll_encode base64Alphabet Encoding.BASE64 Encoding_new_base64 b hb
  rw [show Encoding.BASE64.bits_per_char = 6 from rfl] at hout hacc
  apply do_decode_of_runList _ _ _
    (.base64 (stepAll (CustomDecoderState.new Encoding.BASE64) (encodeDigits 6 b)).1)
  · show runList (.base64 (CustomDecoderState.new Encoding.BASE64)) _ = _
    rw [runList_base64_encode base64Alphabet Encoding.BASE64 Encoding_new_base64 rfl b
      (by decide), hout]
  · show ((stepAll (CustomDecoderState.new Encoding.BASE64) (encodeDigits 6 b)).1.accum_byte
      == 0) = true
    rw [hacc]
    rfl

theorem decode_base64url_roundtrip (b : List Nat) (hb : ∀ x ∈ b, x < 256) :
    Decoder.base64Url.do_decode (encodeBase64With base64UrlAlphabet b) none b.length = .ok b := by
  obtain ⟨hout, hacc⟩ :=
    stepAll_encode base64UrlAlphabet Encoding.BASE64_URL Encoding_new_base64_url b hb
  rw [show Encoding.BASE64_URL.bits_per_char = 6 from rfl] at hout hacc
  apply do_decode_of_runList _ _ _
    (.base64 (stepAll (CustomDecoderState.new Encoding.BASE64_URL) (encodeDigits 6 b)).1)
  · show runList (.base64 (CustomDecoderState.new Encoding.BASE64_URL)) _ = _
    rw [runList_base64_encode base64UrlAlphabet Encoding.BASE64_URL Encoding_new_base64_url
      rfl b (by decide), hout]
  · show ((stepAll (CustomDecoderState.new Encoding.BASE64_URL)
      (encodeDigits 6 b)).1.accum_byte == 0) = true
    rw [hacc]
    rfl

/-!  Whitespace skipping, PEM scanning and the error paths. -/

theorem skip_whitespace_ws (input : List Nat) (i : Nat)
    (h : isAsciiWhitespace (input.getD i 0) = true) :
    Skipper.whitespace.skip input i = i + 1 := by
  unfold Skipper.skip
  rw [h]
  rfl

theorem skip_whitespace_nws (input : List Nat) (i : Nat)
    (h : isAsciiWhitespace (input.getD i 0) = false) :
    Skipper.whitespace.skip input i = i := by
  unfold Skipper.skip
  rw [h]
  rfl

/-- The driver loop under the whitespace policy is `runList` on the
non-whitespace characters of the remaining input. -/
theorem loopGo_whitespace (input : List Nat) (cap : Nat) : ∀ (fuel i : Nat) (st : DecoderState)
    (bytes : List Nat) (k : Nat), input.length - i ≤ fuel →
    loopGo (some .whitespace) input cap fuel i st bytes k =
      match runList st ((input.drop i).filter (fun c => !isAsciiWhitespace c)) with
      | .error e => .error e
      | .ok (st', out) => .ok (writeAll cap bytes k out, k + out.length, st') := by
  intro fuel
  induction fuel with
  | zero =>
    intro i st bytes k hfuel
    have hi : input.length ≤ i := by omega
    rw [List.drop_eq_nil_of_le hi]
    simp [loopGo, runList, writeAll]
  | succ fuel ih =>
    intro i st bytes k hfuel
    by_cases hi : i < input.length
    · simp only [loopGo, if_pos hi]
      cases hws : isAsciiWhitespace (input.getD i 0) with
      | true =>
        rw [skip_whitespace_ws input i hws, if_pos (show i + 1 ≠ i by omega),
          ih (i + 1) st bytes k (by omega)]
        have hfil : (input.drop i).filter (fun c => !isAsciiWhitespace c) =
            (input.drop (i + 1)).filter (fun c => !isAsciiWhitespace c) := by
          rw [drop_eq_getD_cons input i hi, List.filter_cons, hws]
          simp only [Bool.not_true]
          rw [if_neg Bool.false_ne_true]
        rw [hfil]
      | false =>
        rw [skip_whitespace_nws input i hws, if_neg (show ¬ (i ≠ i) from fun h => h rfl)]
        have hfil : (input.drop i).filter (fun c => !isAsciiWhitespace c) =
            input.getD i 0 :: (input.drop (i + 1)).filter (fun c => !isAsciiWhitespace c) := by
          rw [drop_eq_getD_cons input i hi, List.filter_cons, hws]
          simp only [Bool.not_false]
          rw [if_pos trivial]
        rw [hfil]
        cases hup : st.update (input.getD i 0) with
        | error e => rw [runList_cons_err _ _ _ _ hup]
        | ok p =>
          obtain ⟨st1, out1⟩ := p
          rw [runList_cons_ok _ _ _ _ _ hup]
          cases out1 with
          | none =>
            show loopGo (some .whitespace) input cap fuel (i + 1) st1 bytes k = _
            rw [ih (i + 1) st1 bytes k (by omega)]
            cases runList st1 ((input.drop (i + 1)).filter (fun c => !isAsciiWhitespace c)) with
            | error e => rfl
            | ok q => rfl
          | some byte =>
            show loopGo (some .whitespace) input cap fuel (i + 1) st1
              (if k < cap then bytes.set k byte else bytes) (k + 1) = _
            rw [ih (i + 1) st1 (if k < cap then bytes.set k byte else bytes) (k + 1) (by omega)]
            cases runList st1 ((input.drop (i + 1)).filter (fun c => !isAsciiWhitespace c)) with
            | error e => rfl
            | ok q =>
              obtain ⟨st2, out2⟩ := q
              show Except.ok (writeAll cap (if k < cap then bytes.set k byte else bytes)
                  (k + 1) out2, k + 1 + out2.length, st2) =
                Except.ok (writeAll cap bytes k (byte :: out2), k + (byte :: out2).length, st2)
              have harr : k + 1 + out2.length = k + (byte :: out2).length := by
                rw [List.length_cons]; omega
              rw [harr]
              rfl
    · have hdrop : input.drop i = [] := List.drop_eq_nil_of_le (by omega)
      rw [hdrop]
      simp only [loopGo, if_neg hi]
      simp [runList, writeAll]

/-- `do_decode` under the whitespace policy, phrased through `runList`
on the whitespace-stripped input. -/
theorem do_decode_whitespace (d : Decoder) (input : List Nat) (N : Nat) :
    d.do_decode input (some .whitespace) N =
      match runList d.new_state (input.filter (fun c => !isAsciiWhitespace c)) with
      | .error e => .error e
      | .ok (st', out) =>
        if N < out.length then .error (.outputOverflow out.length N)
        else if out.length ≠ N then .error (.outputUnderflow out.length N)
        else if st'.is_final then .ok (writeAll N (List.replicate N 0) 0 out)
        else .error .leftoverState := by
  unfold Decoder.do_decode
  rw [loopGo_whitespace input N input.length 0 _ _ 0 (by omega), List.drop_zero]
  cases runList d.new_state (input.filter (fun c => !isAsciiWhitespace c)) with
  | error e => rfl
  | ok q =>
    obtain ⟨st', out⟩ := q
    simp only [Nat.zero_add]

/-- Inserting whitespace does not change the non-whitespace characters. -/
theorem WsInserted_filter (xs ys : List Nat) (h : WsInserted xs ys) :
    ys.filter (fun c => !isAsciiWhitespace c) = xs.filter (fun c => !isAsciiWhitespace c) := by
  induction h with
  | nil => rfl
  | ws hw _ ih =>
    rw [List.filter_cons]
    simp only [hw, Bool.not_true]
    simpa using ih
  | keep _ ih =>
    rw [List.filter_cons, List.filter_cons, ih]

/-- Characterization of the newline scan: the result is the first
newline position at or after `i`, or the end of input. -/
theorem findEolGo_spec (input : List Nat) : ∀ (fuel i : Nat),
    input.length ≤ i + fuel → i ≤ input.length →
    i ≤ findEolGo input fuel i ∧ findEolGo input fuel i ≤ input.length ∧
    (findEolGo input fuel i < input.length → input.getD (findEolGo input fuel i) 0 = 10) ∧
    (∀ k, i ≤ k → k < findEolGo input fuel i → input.getD k 0 ≠ 10) := by
  intro fuel
  induction fuel with
  | zero =>
    intro i hfuel hil
    have : i = input.length := by omega
    show i ≤ i ∧ i ≤ input.length ∧ (i < input.length → _) ∧ ∀ k, i ≤ k → k < i → _
    refine ⟨le_refl i, hil, fun h => absurd h (by omega), fun k hk1 hk2 => absurd hk2 (by omega)⟩
  | succ fuel ih =>
    intro i hfuel hil
    by_cases hc : i < input.length ∧ input.getD i 0 ≠ 10
    · have heq : findEolGo input (fuel + 1) i = findEolGo input fuel (i + 1) := by
        show (if i < input.length ∧ input.getD i 0 ≠ 10 then findEolGo input fuel (i + 1) else i)
          = _
        rw [if_pos hc]
      obtain ⟨h1, h2, h3, h4⟩ := ih (i + 1) (by omega) (by omega)
      rw [heq]
      refine ⟨by omega, h2, h3, ?_⟩
      intro k hk1 hk2
      rcases Nat.eq_or_lt_of_le hk1 with he | hlt
      · rw [← he]
        exact hc.2
      · exact h4 k (by omega) hk2
    · have heq : findEolGo input (fuel + 1) i = i := by
        show (if i < input.length ∧ input.getD i 0 ≠ 10 then findEolGo input fuel (i + 1) else i)
          = _
        rw [if_neg hc]
      rw [heq]
      refine ⟨le_refl i, hil, ?_, fun k hk1 hk2 => absurd hk2 (by omega)⟩
      intro hilt
      by_contra hne
      exact hc ⟨hilt, hne⟩

/-- The driver loop never changes the buffer length: emitted bytes
beyond the capacity are counted but not written. -/
theorem loopGo_length (skipper : Option Skipper) (input : List Nat) (cap : Nat) :
    ∀ (fuel i : Nat) (st : DecoderState) (bytes : List Nat) (k : Nat)
    (bytes' : List Nat) (c : Nat) (st' : DecoderState),
    loopGo skipper input cap fuel i st bytes k = .ok (bytes', c, st') →
    bytes'.length = bytes.length := by
  intro fuel
  induction fuel with
  | zero =>
    intro i st bytes k bytes' c st' h
    cases h
    rfl
  | succ fuel ih =>
    intro i st bytes k bytes' c st' h
    simp only [loopGo] at h
    split at h
    · split at h
      · exact ih _ _ _ _ _ _ _ h
      · split at h
        · exact Except.noConfusion h
        · split at h
          · exact ih _ _ _ _ _ _ _ h
          · have hlen := ih _ _ _ _ _ _ _ h
            rw [hlen]
            split
            · rw [List.length_set]
            · rfl
    · cases h
      rfl

/-- The post-loop checks of `do_decode`: overflow, underflow and
left-over state, in the order the source asserts them. -/
theorem do_decode_checks (d : Decoder) (input : List Nat) (sk : Option Skipper) (N : Nat)
    (bytes : List Nat) (c : Nat) (st : DecoderState)
    (h : loopGo sk input N input.length 0 d.new_state (List.replicate N 0) 0 =
      .ok (bytes, c, st)) :
    (N < c → d.do_decode input sk N = .error (.outputOverflow c N)) ∧
    (c < N → d.do_decode input sk N = .error (.outputUnderflow c N)) ∧
    (c = N → st.is_final = false → d.do_decode input sk N = .error .leftoverState) ∧
    (c = N → st.is_final = true → d.do_decode input sk N = .ok bytes) ∧
    bytes.length = N := by
  have hunf : d.do_decode input sk N =
      (if N < c then .error (.outputOverflow c N)
      else if c ≠ N then .error (.outputUnderflow c N)
      else if st.is_final then .ok bytes
      else .error .leftoverState) := by
    unfold Decoder.do_decode
    rw [h]
  refine ⟨?_, ?_, ?_, ?_, ?_⟩
  · intro hlt
    rw [hunf, if_pos hlt]
  · intro hlt
    rw [hunf, if_neg (by omega), if_pos (by omega)]
  · intro he hf
    rw [hunf, if_neg (by omega), if_neg (by omega), if_neg (by rw [hf]; exact Bool.false_ne_true)]
  · intro he hf
    rw [hunf, if_neg (by omega), if_neg (by omega), if_pos hf]
  · have := loopGo_length sk input N input.length 0 d.new_state (List.replicate N 0) 0
      bytes c st h
    rw [this, List.length_replicate]

/-- If the first `j` characters are clean but the `j`-th is non-ASCII,
`buildTable` reports a non-ASCII error at absolute index `index + j`. -/
theorem buildTable_err_ascii (rest : List Nat) : ∀ (index : Nat) (table : List Nat) (j : Nat)
    (hj : j < rest.length), table.length = 128 → index + rest.length ≤ 64 →
    (∀ c ∈ rest.take j, c < 128 ∧ table.getD c 0 = 255) → (rest.take j).Nodup →
    128 ≤ rest.get ⟨j, hj⟩ →
    buildTable rest index table = .error (.nonAsciiChar (index + j)) := by
  induction rest with
  | nil =>
    intro index table j hj
    exact absurd hj (by simp)
  | cons byte rest ih =>
    intro index table j hj hlen hbound hclean hnd hge
    match j with
    | 0 =>
      simp only [buildTable, if_pos (show 128 ≤ byte from hge), Nat.add_zero]
    | j + 1 =>
      have hbmem : byte ∈ (byte :: rest).take (j + 1) := by
        rw [List.take_succ_cons]
        simp
      obtain ⟨hb128, hbfresh⟩ := hclean byte hbmem
      have hrec : buildTable rest (index + 1) (table.set byte index) =
          .error (.nonAsciiChar (index + 1 + j)) := by
        apply ih (index + 1) (table.set byte index) j (by simpa using hj)
          (by rw [List.length_set]; exact hlen) (by simp at hbound ⊢; omega)
        · intro c hc
          have hcm : c ∈ (byte :: rest).take (j + 1) := by
            rw [List.take_succ_cons]
            exact List.mem_cons_of_mem _ hc
          have hnotb : byte ∉ rest.take j := by
            have := List.nodup_cons.mp (by rw [← List.take_succ_cons]; exact hnd)
            exact this.1
          have hne : byte ≠ c := fun he => hnotb (he ▸ hc)
          refine ⟨(hclean c hcm).1, ?_⟩
          rw [getD_set_ne _ _ _ _ _ hne]
          exact (hclean c hcm).2
        · have := List.nodup_cons.mp (by rw [← List.take_succ_cons]; exact hnd)
          exact this.2
        · exact hge
      simp only [buildTable, if_neg (show ¬ 128 ≤ byte by omega), hbfresh]
      simp only [Encoding.noMapping, ne_eq, not_true_eq_false, if_false, ite_false]
      rw [hrec]
      have : index + 1 + j = index + (j + 1) := by omega
      rw [this]

/-- If the first `j` characters are clean but the `j`-th character is an
ASCII character already taken (in the prefix or in the incoming table),
`buildTable` reports a duplicate-character error naming it. -/
theorem buildTable_err_dup (rest : List Nat) : ∀ (index : Nat) (table : List Nat) (j : Nat)
    (hj : j < rest.length), table.length = 128 → index + rest.length ≤ 64 →
    (∀ c ∈ rest.take j, c < 128 ∧ table.getD c 0 = 255) → (rest.take j).Nodup →
    rest.get ⟨j, hj⟩ < 128 →
    (rest.get ⟨j, hj⟩ ∈ rest.take j ∨ table.getD (rest.get ⟨j, hj⟩) 0 ≠ 255) →
    buildTable rest index table = .error (.duplicateChar (rest.get ⟨j, hj⟩)) := by
  induction rest with
  | nil =>
    intro index table j hj
    exact absurd hj (by simp)
  | cons byte rest ih =>
    intro index table j hj hlen hbound hclean hnd h128 htaken
    match j, hj with
    | 0, hj =>
      rcases htaken with hmem | hfresh
      · exact absurd hmem (by simp)
      · show buildTable (byte :: rest) index table = .error (.duplicateChar byte)
        have hb : byte < 128 := h128
        simp only [buildTable, if_neg (show ¬ 128 ≤ byte by omega)]
        rw [if_pos (show table.getD byte 0 ≠ Encoding.noMapping from hfresh)]
    | j + 1, hj =>
      have hj' : j < rest.length := by simpa using hj
      have hgj : (byte :: rest).get ⟨j + 1, hj⟩ = rest.get ⟨j, hj'⟩ := rfl
      rw [hgj] at h128 htaken ⊢
      rw [List.take_succ_cons] at hclean hnd htaken
      obtain ⟨hb128, hbfresh⟩ := hclean byte (by simp)
      have hndt := List.nodup_cons.mp hnd
      have hrec : buildTable rest (index + 1) (table.set byte index) =
          .error (.duplicateChar (rest.get ⟨j, hj'⟩)) := by
        apply ih (index + 1) (table.set byte index) j hj'
          (by rw [List.length_set]; exact hlen) (by simp at hbound ⊢; omega)
        · intro c hc
          have hne : byte ≠ c := fun he => hndt.1 (he ▸ hc)
          refine ⟨(hclean c (List.mem_cons_of_mem _ hc)).1, ?_⟩
          rw [getD_set_ne _ _ _ _ _ hne]
          exact (hclean c (List.mem_cons_of_mem _ hc)).2
        · exact hndt.2
        · exact h128
        · rcases htaken with hmem | hfresh2
          · rcases List.mem_cons.mp hmem with he | hm
            · right
              rw [he, getD_set_self _ _ _ _ (by omega)]
              have hlc : (byte :: rest).length = rest.length + 1 := List.length_cons _ _
              omega
            · left
              exact hm
          · right
            by_cases hbc : byte = rest.get ⟨j, hj'⟩
            · rw [← hbc, getD_set_self _ _ _ _ (by omega)]
              have hlc : (byte :: rest).length = rest.length + 1 := List.length_cons _ _
              omega
            · rw [getD_set_ne _ _ _ _ _ hbc]
              exact hfresh2
      simp only [buildTable, if_neg (show ¬ 128 ≤ byte by omega), hbfresh]
      simp only [Encoding.noMapping, ne_eq, not_true_eq_false, if_false, ite_false]
      exact hrec

/-!  Claim theorems. -/

/-- C1: for every alphabet with `bits_per_digit` in 1..6 and every digit
`d < 2^bits_per_digit`, a single update of the generic bit-packing state
(on a state satisfying its representation invariant `filled_bits < 8`,
`partial < 2^filled_bits`) follows the three-case transition of the
claim: absorb with no output when `filled_bits < 8 - bits`, emit
`(partial << bits) | d` and reset when `filled_bits = 8 - bits`, and in
the straddling case emit `(partial << remaining) | (d >> leftover)`
keeping `d mod 2^leftover` with `leftover` filled bits. -/
theorem c1_step_transition (st : CustomDecoderState) (d : Nat)
    (hb1 : 1 ≤ st.table.bits_per_char) (hb6 : st.table.bits_per_char ≤ 6)
    (hd : d < 2 ^ st.table.bits_per_char)
    (hf : st.filled_bits < 8) (hp : st.accum_byte < 2 ^ st.filled_bits) :
    (st.filled_bits < 8 - st.table.bits_per_char →
      st.step d = ({ st with
        accum_byte := (st.accum_byte <<< st.table.bits_per_char) ||| d,
        filled_bits := st.filled_bits + st.table.bits_per_char }, none)) ∧
    (st.filled_bits = 8 - st.table.bits_per_char →
      st.step d = ({ st with accum_byte := 0, filled_bits := 0 },
        some ((st.accum_byte <<< st.table.bits_per_char) ||| d))) ∧
    (8 - st.table.bits_per_char < st.filled_bits →
      st.step d = ({ st with
          accum_byte := d % 2 ^ (st.table.bits_per_char - (8 - st.filled_bits)),
          filled_bits := st.table.bits_per_char - (8 - st.filled_bits) },
        some ((st.accum_byte <<< (8 - st.filled_bits)) |||
          (d >>> (st.table.bits_per_char - (8 - st.filled_bits)))))) := by
  obtain ⟨e, p, f⟩ := st
  simp only at hb1 hb6 hd hf hp ⊢
  set bits := e.bits_per_char with hbits
  refine ⟨?_, ?_, ?_⟩
  · intro hc
    have hstep : CustomDecoderState.step ⟨e, p, f⟩ d =
        (⟨e, ((p <<< bits) % 256 + d) % 256, f + bits⟩, none) := by
      simp only [CustomDecoderState.step, if_pos hc]
    rw [hstep]
    have hM : ((p <<< bits) % 256 + d) % 256 = (p <<< bits) ||| d := by
      rw [shiftLeft_lor_eq_add hd, Nat.shiftLeft_eq]
      have h1 : (p + 1) * 2 ^ bits ≤ 2 ^ f * 2 ^ bits := Nat.mul_le_mul_right _ hp
      have h2 : (p + 1) * 2 ^ bits = p * 2 ^ bits + 2 ^ bits := by ring
      have h4 : (2 : Nat) ^ f * 2 ^ bits = 2 ^ (f + bits) := (pow_add 2 f bits).symm
      have h5 : (2 : Nat) ^ (f + bits) ≤ 2 ^ 7 :=
        Nat.pow_le_pow_right (by norm_num) (by omega)
      have h7 : (2 : Nat) ^ 7 = 128 := by norm_num
      rw [Nat.mod_eq_of_lt (show p * 2 ^ bits < 256 by omega),
        Nat.mod_eq_of_lt (by omega)]
    rw [hM]
  · intro hc
    have hstep : CustomDecoderState.step ⟨e, p, f⟩ d =
        (⟨e, 0, 0⟩, some (((p <<< bits) % 256 + d) % 256)) := by
      simp only [CustomDecoderState.step, if_neg (show ¬ f < 8 - bits by omega), if_pos hc]
    rw [hstep]
    have hM : ((p <<< bits) % 256 + d) % 256 = (p <<< bits) ||| d := by
      rw [shiftLeft_lor_eq_add hd, Nat.shiftLeft_eq]
      have h1 : (p + 1) * 2 ^ bits ≤ 2 ^ f * 2 ^ bits := Nat.mul_le_mul_right _ hp
      have h2 : (p + 1) * 2 ^ bits = p * 2 ^ bits + 2 ^ bits := by ring
      have h4 : (2 : Nat) ^ f * 2 ^ bits = 2 ^ (f + bits) := (pow_add 2 f bits).symm
      have h5 : (2 : Nat) ^ (f + bits) = 256 := by
        have h8 : f + bits = 8 := by omega
        rw [h8]; norm_num
      rw [Nat.mod_eq_of_lt (show p * 2 ^ bits < 256 by omega),
        Nat.mod_eq_of_lt (by omega)]
    rw [hM]
  · intro hc
    have hstep : CustomDecoderState.step ⟨e, p, f⟩ d =
        (⟨e, d % (1 <<< (bits - (8 - f))), bits - (8 - f)⟩,
          some (((p <<< (8 - f)) % 256 + (d >>> (bits - (8 - f)))) % 256)) := by
      simp only [CustomDecoderState.step, if_neg (show ¬ f < 8 - bits by omega),
        if_neg (show ¬ f = 8 - bits by omega)]
    rw [hstep]
    have h2l : (1 : Nat) <<< (bits - (8 - f)) = 2 ^ (bits - (8 - f)) := by
      rw [Nat.shiftLeft_eq, Nat.one_mul]
    obtain ⟨q, hq⟩ : ∃ q, d >>> (bits - (8 - f)) = q := ⟨_, rfl⟩
    have hrl : (8 - f) + (bits - (8 - f)) = bits := by omega
    have hlpos : (0 : Nat) < 2 ^ (bits - (8 - f)) := Nat.pos_pow_of_pos _ (by norm_num)
    have hdiv : q < 2 ^ (8 - f) := by
      rw [← hq, Nat.shiftRight_eq_div_pow]
      apply (Nat.div_lt_iff_lt_mul hlpos).mpr
      calc d < 2 ^ bits := hd
        _ = 2 ^ (8 - f) * 2 ^ (bits - (8 - f)) := by rw [← pow_add, hrl]
    have hM : ((p <<< (8 - f)) % 256 + (d >>> (bits - (8 - f)))) % 256 =
        (p <<< (8 - f)) ||| (d >>> (bits - (8 - f))) := by
      rw [hq, shiftLeft_lor_eq_add hdiv, Nat.shiftLeft_eq]
      have h1 : (p + 1) * 2 ^ (8 - f) ≤ 2 ^ f * 2 ^ (8 - f) := Nat.mul_le_mul_right _ hp
      have h2 : (p + 1) * 2 ^ (8 - f) = p * 2 ^ (8 - f) + 2 ^ (8 - f) := by ring
      have h4 : (2 : Nat) ^ f * 2 ^ (8 - f) = 256 := by
        have h8 : f + (8 - f) = 8 := by omega
        rw [← pow_add, h8]; norm_num
      rw [Nat.mod_eq_of_lt (show p * 2 ^ (8 - f) < 256 by omega),
        Nat.mod_eq_of_lt (by omega)]
    rw [hM, h2l]

/-- Witness for C1 at a concrete state: the Base64 table (6 bits per
digit), two filled bits holding value 3, digit 5 — the boundary case
emits `(3 << 6) | 5` and resets. -/
theorem c1_step_transition_witness :
    CustomDecoderState.step ⟨Encoding.BASE64, 3, 2⟩ 5 =
      ({ table := Encoding.BASE64, accum_byte := 0, filled_bits := 0 },
        some ((3 <<< 6) ||| 5)) :=
  (c1_step_transition ⟨Encoding.BASE64, 3, 2⟩ 5 (by decide) (by decide) (by decide)
    (by decide) (by decide)).2.1 (by decide)

/-- C2: for every byte sequence `b` and every supported configuration,
decoding the standard encoding of `b` with expected output length
`|b|` returns exactly `b`: hex digit pairs for `Hex`, RFC 4648 encoding
(with `=` padding) for the Base64 variants, and big-endian
bits-per-digit chunks through the alphabet for every custom
power-of-two alphabet accepted by `Encoding.new`. -/
theorem c2_roundtrip (b : List Nat) (hb : ∀ x ∈ b, x < 256) :
    Decoder.hex.do_decode (encodeHex b) none b.length = .ok b ∧
    Decoder.base64.do_decode (encodeBase64With base64Alphabet b) none b.length = .ok b ∧
    Decoder.base64Url.do_decode (encodeBase64With base64UrlAlphabet b) none b.length = .ok b ∧
    ∀ (a : List Nat) (e : Encoding), Encoding.new a = .ok e →
      (Decoder.custom e).do_decode (encodeWith a e.bits_per_char b) none b.length = .ok b :=
  ⟨decode_hex_roundtrip b hb, decode_base64_roundtrip b hb, decode_base64url_roundtrip b hb,
    fun a e hnew => decode_custom_roundtrip a e hnew b hb⟩

/-- Witness for C2 at the byte sequence "test": the hex round trip and
the custom round trip through the standard Base64 alphabet. -/
theorem c2_roundtrip_witness :
    Decoder.hex.do_decode (encodeHex [116, 101, 115, 116]) none
      [116, 101, 115, 116].length = .ok [116, 101, 115, 116] ∧
    (Decoder.custom Encoding.BASE64).do_decode
      (encodeWith base64Alphabet Encoding.BASE64.bits_per_char [116, 101, 115, 116]) none
      [116, 101, 115, 116].length = .ok [116, 101, 115, 116] :=
  ⟨(c2_roundtrip [116, 101, 115, 116] (by decide)).1,
    (c2_roundtrip [116, 101, 115, 116] (by decide)).2.2.2 base64Alphabet Encoding.BASE64
      (by decide)⟩

set_option maxRecDepth 40000 in
/-- C3: a decode succeeds only if the number of emitted bytes equals the
expected length exactly; more is an overflow error and fewer an
underflow error, both distinguishable and reporting the emitted count
and the expected length, both raised only after the loop has consumed
the whole input (the buffer length never changes — a byte arriving with
the cursor at `N` is counted, not written out of bounds).  Concretely,
the 8 Base64 characters of "Pj4+Pz8/" decode to 6 bytes, so expected
length 3 yields overflow (6, 3) and expected length 16 yields
underflow (6, 16). -/
theorem c3_length_checks :
    (∀ (d : Decoder) (input : List Nat) (sk : Option Skipper) (N : Nat)
      (bytes : List Nat) (c : Nat) (st : DecoderState),
      loopGo sk input N input.length 0 d.new_state (List.replicate N 0) 0 =
        .ok (bytes, c, st) →
      (N < c → d.do_decode input sk N = .error (.outputOverflow c N)) ∧
      (c < N → d.do_decode input sk N = .error (.outputUnderflow c N)) ∧
      (∀ v, d.do_decode input sk N = .ok v → c = N) ∧
      bytes.length = N) ∧
    (∀ c1 N1 c2 N2 : Nat,
      DecodeError.outputOverflow c1 N1 ≠ DecodeError.outputUnderflow c2 N2) ∧
    Decoder.base64.do_decode [80, 106, 52, 43, 80, 122, 56, 47] none 3 =
      .error (.outputOverflow 6 3) ∧
    Decoder.base64.do_decode [80, 106, 52, 43, 80, 122, 56, 47] none 16 =
      .error (.outputUnderflow 6 16) := by
  refine ⟨?_, ?_, by decide, by decide⟩
  · intro d input sk N bytes c st h
    obtain ⟨hov, hun, hleft, hok, hblen⟩ := do_decode_checks d input sk N bytes c st h
    refine ⟨hov, hun, ?_, hblen⟩
    intro v hv
    by_contra hne
    rcases Nat.lt_or_ge N c with hlt | hge
    · rw [hov hlt] at hv
      exact Except.noConfusion hv
    · have hlt : c < N := by omega
      rw [hun hlt] at hv
      exact Except.noConfusion hv
  · intro c1 N1 c2 N2 h
    exact DecodeError.noConfusion h

set_option maxRecDepth 40000 in
/-- Witness for C3: the overflow path at the concrete run of "Pj4+Pz8/"
with expected length 3 (the loop emits 6 bytes into the length-3
buffer without growing it). -/
theorem c3_length_checks_witness :
    Decoder.base64.do_decode [80, 106, 52, 43, 80, 122, 56, 47] none 3 =
      .error (.outputOverflow 6 3) ∧ [62, 62, 62].length = 3 :=
  ⟨((c3_length_checks.1 Decoder.base64 [80, 106, 52, 43, 80, 122, 56, 47] none 3
      [62, 62, 62] 6 (.base64 ⟨Encoding.BASE64, 0, 0⟩) (by decide)).1 (by decide)),
    ((c3_length_checks.1 Decoder.base64 [80, 106, 52, 43, 80, 122, 56, 47] none 3
      [62, 62, 62] 6 (.base64 ⟨Encoding.BASE64, 0, 0⟩) (by decide)).2.2.2)⟩

set_option maxRecDepth 40000 in
/-- C4: the generic bit-packing state is final exactly when its
accumulator (`partial_byte`) is 0 — `filled_bits` is deliberately not
required to be 0 — the hex state is final exactly when no nibble is
pending, and a decode whose end state is not final fails with the
left-over-state error.  Concretely, decoding the 3 hex digits "012"
with expected length 1 fails with the left-over-state error. -/
theorem c4_finality :
    (∀ st : CustomDecoderState, st.is_final = true ↔ st.accum_byte = 0) ∧
    (∀ st : Option Nat, (DecoderState.hex st).is_final = true ↔ st = none) ∧
    (∀ (d : Decoder) (input : List Nat) (sk : Option Skipper) (N : Nat)
      (bytes : List Nat) (st : DecoderState),
      loopGo sk input N input.length 0 d.new_state (List.replicate N 0) 0 =
        .ok (bytes, N, st) → st.is_final = false →
      d.do_decode input sk N = .error .leftoverState) ∧
    Decoder.hex.do_decode [48, 49, 50] none 1 = .error .leftoverState := by
  refine ⟨?_, ?_, ?_, by decide⟩
  · intro st
    show (st.accum_byte == 0) = true ↔ st.accum_byte = 0
    simp
  · intro st
    cases st <;> simp [DecoderState.is_final]
  · intro d input sk N bytes st h hfin
    exact (do_decode_checks d input sk N bytes N st h).2.2.1 rfl hfin

set_option maxRecDepth 40000 in
/-- Witness for C4: the left-over-state path at the concrete hex run of
"012" (the loop emits 1 byte and leaves a pending nibble). -/
theorem c4_finality_witness :
    Decoder.hex.do_decode [48, 49, 50] none 1 = .error .leftoverState :=
  c4_finality.2.2.1 Decoder.hex [48, 49, 50] none 1 [1] (.hex (some 2)) (by decide) (by decide)

/-- A run starting in a Base64 state ends in a Base64 state. -/
theorem runList_base64_variant (body : List Nat) : ∀ (s0 : CustomDecoderState)
    (st1 : DecoderState) (o : List Nat),
    runList (.base64 s0) body = .ok (st1, o) → ∃ s1, st1 = .base64 s1 := by
  induction body with
  | nil =>
    intro s0 st1 o h
    cases h
    exact ⟨s0, rfl⟩
  | cons c cs ih =>
    intro s0 st1 o h
    cases hup : (DecoderState.base64 s0).update c with
    | error e =>
      rw [runList_cons_err _ _ _ _ hup] at h
      exact Except.noConfusion h
    | ok p =>
      obtain ⟨st1', o'⟩ := p
      rw [runList_cons_ok _ _ _ _ _ hup] at h
      have hvar : ∃ s', st1' = DecoderState.base64 s' := by
        rw [update_base64] at hup
        by_cases hc : c = 61
        · rw [if_pos hc] at hup
          cases hup
          exact ⟨s0, rfl⟩
        · rw [if_neg hc] at hup
          cases hs : s0.update c with
          | error e =>
            rw [hs] at hup
            exact Except.noConfusion hup
          | ok q2 =>
            obtain ⟨s', o2⟩ := q2
            rw [hs] at hup
            cases hup
            exact ⟨s', rfl⟩
      obtain ⟨s', rfl⟩ := hvar
      cases hrl : runList (DecoderState.base64 s') cs with
      | error e =>
        rw [hrl] at h
        exact Except.noConfusion h
      | ok q =>
        obtain ⟨st2, out⟩ := q
        rw [hrl] at h
        cases h
        exact ih s' _ _ hrl

/-- For Base64 states, any run over the body with trailing `=` padding
appended behaves like the run over the body alone. -/
theorem runList_pad_append (body : List Nat) (k : Nat) (s0 : CustomDecoderState) :
    runList (.base64 s0) (body ++ List.replicate k 61) = runList (.base64 s0) body := by
  rw [runList_append]
  cases hrl : runList (.base64 s0) body with
  | error e => rfl
  | ok q =>
    obtain ⟨st1, o⟩ := q
    obtain ⟨s1, rfl⟩ := runList_base64_variant body s0 st1 o hrl
    show (match runList (DecoderState.base64 s1) (List.replicate k 61) with
      | Except.error e => (Except.error e : Except DecodeError (DecoderState × List Nat))
      | Except.ok (st2, o2) => Except.ok (st2, o ++ o2)) = Except.ok (.base64 s1, o)
    rw [runList_base64_pad]
    show Except.ok (DecoderState.base64 s1, o ++ []) = _
    rw [List.append_nil]

/-- C5: for the Base64 and Base64Url configurations only, an input `=`
byte (61) is silently consumed, leaves the state unchanged and produces
no digit; consequently decoding any body with trailing `=` characters
appended gives exactly the same result as decoding the body alone, for
every expected length.  For a Custom configuration `=` receives no
special treatment: it goes through the alphabet lookup, and any lookup
error surfaces directly. -/
theorem c5_padding :
    (∀ st : CustomDecoderState, (DecoderState.base64 st).update 61 = .ok (.base64 st, none)) ∧
    (∀ cfg : Decoder, (cfg = .base64 ∨ cfg = .base64Url) →
      ∀ (body : List Nat) (k N : Nat),
        cfg.do_decode (body ++ List.replicate k 61) none N = cfg.do_decode body none N) ∧
    (∀ (st : CustomDecoderState) (err : DecodeError), st.table.lookup 61 = .error err →
      (DecoderState.custom st).update 61 = .error err) := by
  refine ⟨?_, ?_, ?_⟩
  · intro st
    rw [update_base64, if_pos rfl]
  · intro cfg hcfg body k N
    have hstate : ∃ s0, cfg.new_state = .base64 s0 := by
      rcases hcfg with rfl | rfl
      · exact ⟨_, rfl⟩
      · exact ⟨_, rfl⟩
    obtain ⟨s0, hs0⟩ := hstate
    rw [do_decode_none, do_decode_none, hs0, runList_pad_append]
  · intro st err h
    have hup : st.update 61 = .error err := by
      unfold CustomDecoderState.update
      rw [h]
    rw [update_custom, hup]

set_option maxRecDepth 40000 in
/-- Witness for C5: decoding "dGVzdA==" equals decoding "dGVzdA" for
the standard Base64 configuration. -/
theorem c5_padding_witness :
    Decoder.base64.do_decode ([100, 71, 86, 122, 100, 65] ++ List.replicate 2 61) none 4 =
      Decoder.base64.do_decode [100, 71, 86, 122, 100, 65] none 4 :=
  c5_padding.2.1 Decoder.base64 (Or.inl rfl) [100, 71, 86, 122, 100, 65] 2 4

set_option maxRecDepth 40000 in
/-- C6 counterexample: byte 200 is not a character of the (successfully
built) Base64 alphabet, yet its lookup fails with the out-of-bounds
table access — `self.table[200]` on the 128-entry table — and not with
the unmapped-character error the claim asserts for every non-alphabet
byte. -/
theorem c6_counterexample :
    Encoding.new base64Alphabet = .ok Encoding.BASE64 ∧
    (200 : Nat) ∉ base64Alphabet ∧
    Encoding.BASE64.lookup 200 = .error (.tableIndexOutOfBounds 200) ∧
    Encoding.BASE64.lookup 200 ≠ .error (.unmappedChar 200) := by
  refine ⟨by decide, by decide, by decide, by decide⟩

/-- C6 (amended): for every built alphabet table and every byte that is
not a character of the alphabet, the lookup fails — with the
unmapped-character error naming the byte when the byte is ASCII
(< 128), and with an out-of-bounds table access for bytes ≥ 128. -/
theorem c6_lookup_errors (a : List Nat) (e : Encoding) (hnew : Encoding.new a = .ok e)
    (c : Nat) (hc : c < 256) (hmem : c ∉ a) :
    e.lookup c = (if c < 128 then .error (.unmappedChar c)
      else .error (.tableIndexOutOfBounds c)) := by
  by_cases h128 : c < 128
  · rw [if_pos h128]
    exact lookup_not_mem a e hnew c hmem h128
  · rw [if_neg h128]
    exact lookup_oob a e hnew c (by omega)

set_option maxRecDepth 40000 in
/-- Witness for C6 (amended): the byte of the character "." is ASCII and
absent from the Base64 alphabet, so its lookup reports the
unmapped-character error. -/
theorem c6_lookup_errors_witness :
    Encoding.BASE64.lookup 46 = (if (46 : Nat) < 128
      then .error (.unmappedChar 46) else .error (.tableIndexOutOfBounds 46)) :=
  c6_lookup_errors base64Alphabet Encoding.BASE64 (by decide) 46 (by decide) (by decide)

/-- C7 counterexample: on the input "-----X\nA" the PEM skip step at
position 0 returns position 6 — the newline itself — not position 7
just past it, contradicting the claim's "advances the position to just
past the next newline". -/
theorem c7_counterexample :
    [45, 45, 45, 45, 45, 88, 10, 65].getD 6 0 = 10 ∧
    Skipper.pem.skip [45, 45, 45, 45, 45, 88, 10, 65] 0 = 6 ∧
    Skipper.pem.skip [45, 45, 45, 45, 45, 88, 10, 65] 0 ≠ 7 := by
  refine ⟨by decide, by decide, by decide⟩

/-- C7 (amended): under the PEM policy, a single skip step at a
non-whitespace position where the byte and the next four bytes are all
`-` advances the position to the next newline character itself (or to
the end of input if none follows) — the newline is then consumed by the
whitespace rule of the following step; with fewer than five consecutive
dashes the step returns the position unchanged. -/
theorem c7_pem_skip (input : List Nat) (i : Nat) (hi : i < input.length)
    (hws : isAsciiWhitespace (input.getD i 0) = false) :
    (input.getD i 0 = 45 → input.getD (i + 1) 0 = 45 → input.getD (i + 2) 0 = 45 →
      input.getD (i + 3) 0 = 45 → input.getD (i + 4) 0 = 45 → i + 5 ≤ input.length →
      i + 5 ≤ Skipper.pem.skip input i ∧ Skipper.pem.skip input i ≤ input.length ∧
      (Skipper.pem.skip input i < input.length →
        input.getD (Skipper.pem.skip input i) 0 = 10) ∧
      (∀ k, i + 5 ≤ k → k < Skipper.pem.skip input i → input.getD k 0 ≠ 10)) ∧
    (¬ (input.getD i 0 = 45 ∧ input.getD (i + 1) 0 = 45 ∧ input.getD (i + 2) 0 = 45 ∧
        input.getD (i + 3) 0 = 45 ∧ input.getD (i + 4) 0 = 45 ∧ i + 5 ≤ input.length) →
      Skipper.pem.skip input i = i) := by
  have hskip : Skipper.pem.skip input i =
      (match Skipper.detectPemHeader input i with
      | some new_in_index => new_in_index
      | none => i) := by
    unfold Skipper.skip
    rw [hws]
    rfl
  constructor
  · intro h0 h1 h2 h3 h4 hlen
    have hdet : Skipper.detectPemHeader input i =
        some (findEolGo input input.length (i + 5)) := by
      unfold Skipper.detectPemHeader
      rw [if_neg (show ¬ input.length < i + 5 by omega), if_pos ⟨h0, h1, h2, h3, h4⟩]
    rw [hskip, hdet]
    obtain ⟨hs1, hs2, hs3, hs4⟩ :=
      findEolGo_spec input input.length (i + 5) (by omega) (by omega)
    exact ⟨hs1, hs2, hs3, hs4⟩
  · intro hno
    have hdet : Skipper.detectPemHeader input i = none := by
      unfold Skipper.detectPemHeader
      by_cases hl : input.length < i + 5
      · rw [if_pos hl]
      · rw [if_neg hl]
        rw [if_neg (show ¬ (input.getD i 0 = 45 ∧ input.getD (i + 1) 0 = 45 ∧
            input.getD (i + 2) 0 = 45 ∧ input.getD (i + 3) 0 = 45 ∧
            input.getD (i + 4) 0 = 45) by
          intro hc
          exact hno ⟨hc.1, hc.2.1, hc.2.2.1, hc.2.2.2.1, hc.2.2.2.2, by omega⟩)]
    rw [hskip, hdet]

/-- Witness for C7 (amended): on "-----X\nA" from position 0 the skip
step lands on the newline at position 6 with no newline before it. -/
theorem c7_pem_skip_witness :
    0 + 5 ≤ Skipper.pem.skip [45, 45, 45, 45, 45, 88, 10, 65] 0 ∧
    Skipper.pem.skip [45, 45, 45, 45, 45, 88, 10, 65] 0 ≤
      [45, 45, 45, 45, 45, 88, 10, 65].length ∧
    (Skipper.pem.skip [45, 45, 45, 45, 45, 88, 10, 65] 0 <
        [45, 45, 45, 45, 45, 88, 10, 65].length →
      [45, 45, 45, 45, 45, 88, 10, 65].getD
        (Skipper.pem.skip [45, 45, 45, 45, 45, 88, 10, 65] 0) 0 = 10) ∧
    (∀ k, 0 + 5 ≤ k → k < Skipper.pem.skip [45, 45, 45, 45, 45, 88, 10, 65] 0 →
      [45, 45, 45, 45, 45, 88, 10, 65].getD k 0 ≠ 10) :=
  (c7_pem_skip [45, 45, 45, 45, 45, 88, 10, 65] 0 (by decide) (by decide)).1
    (by decide) (by decide) (by decide) (by decide) (by decide) (by decide)

set_option maxRecDepth 40000 in
/-- C8 counterexample: under the PEM policy, inserting a single space
inside the five-dash marker of "-----\nAA" (which decodes to [0])
breaks the marker: the leading dash then reaches the Base64 alphabet
lookup and the decode fails, so the claim fails for the Pem skip
policy. -/
theorem c8_counterexample :
    WsInserted [45, 45, 45, 45, 45, 10, 65, 65] [45, 32, 45, 45, 45, 45, 10, 65, 65] ∧
    Decoder.base64.do_decode [45, 45, 45, 45, 45, 10, 65, 65] (some .pem) 1 = .ok [0] ∧
    Decoder.base64.do_decode [45, 32, 45, 45, 45, 45, 10, 65, 65] (some .pem) 1 =
      .error (.unmappedChar 45) ∧
    Except.error (DecodeError.unmappedChar 45) ≠
      (Except.ok [0] : Except DecodeError (List Nat)) := by
  refine ⟨?_, by decide, by decide, by decide⟩
  exact .keep (.ws (by decide) (.keep (.keep (.keep (.keep (.keep (.keep (.keep .nil))))))))

/-- C8 (amended): under the Whitespace skip policy, inserting arbitrary
runs of ASCII whitespace between the characters of any input leaves the
decode result unchanged, for every configuration and expected length
(under Pem this can fail when an insertion splits a five-dash marker,
see the counterexample). -/
theorem c8_whitespace_insertion (cfg : Decoder) (xs ys : List Nat) (N : Nat)
    (h : WsInserted xs ys) :
    cfg.do_decode xs (some .whitespace) N = cfg.do_decode ys (some .whitespace) N := by
  rw [do_decode_whitespace, do_decode_whitespace, WsInserted_filter xs ys h]

set_option maxRecDepth 40000 in
/-- Witness for C8 (amended): inserting a space between the two hex
digits of "01" does not change the whitespace-skipping decode. -/
theorem c8_whitespace_insertion_witness :
    Decoder.hex.do_decode [48, 49] (some .whitespace) 1 =
      Decoder.hex.do_decode [48, 32, 49] (some .whitespace) 1 :=
  c8_whitespace_insertion Decoder.hex [48, 49] [48, 32, 49] 1
    (.keep (.ws (by decide) (.keep .nil)))

/-- C9: building an alphabet table succeeds for every sequence of
length 2, 4, 8, 16, 32 or 64 of pairwise-distinct ASCII characters,
assigning each character its position as digit value and setting
`bits_per_char = log2 length`; any other length fails naming that
length; with a valid length, a non-ASCII character first reached in an
otherwise clean scan fails naming its index, and a repeated ASCII
character first reached fails naming the character. -/
theorem c9_alphabet_build :
    (∀ a : List Nat, (a.length = 2 ∨ a.length = 4 ∨ a.length = 8 ∨ a.length = 16 ∨
        a.length = 32 ∨ a.length = 64) → (∀ c ∈ a, c < 128) → a.Nodup →
      ∃ e, Encoding.new a = .ok e ∧ e.bits_per_char = Nat.log2 a.length ∧
        ∀ j (hj : j < a.length), e.lookup (a.get ⟨j, hj⟩) = .ok j) ∧
    (∀ a : List Nat, ¬ (a.length = 2 ∨ a.length = 4 ∨ a.length = 8 ∨ a.length = 16 ∨
        a.length = 32 ∨ a.length = 64) →
      Encoding.new a = .error (.invalidAlphabetLength a.length)) ∧
    (∀ (a : List Nat) (i : Nat) (hi : i < a.length),
      (a.length = 2 ∨ a.length = 4 ∨ a.length = 8 ∨ a.length = 16 ∨
        a.length = 32 ∨ a.length = 64) →
      128 ≤ a.get ⟨i, hi⟩ → (∀ c ∈ a.take i, c < 128) → (a.take i).Nodup →
      Encoding.new a = .error (.nonAsciiChar i)) ∧
    (∀ (a : List Nat) (i : Nat) (hi : i < a.length),
      (a.length = 2 ∨ a.length = 4 ∨ a.length = 8 ∨ a.length = 16 ∨
        a.length = 32 ∨ a.length = 64) →
      a.get ⟨i, hi⟩ < 128 → a.get ⟨i, hi⟩ ∈ a.take i →
      (∀ c ∈ a.take i, c < 128) → (a.take i).Nodup →
      Encoding.new a = .error (.duplicateChar (a.get ⟨i, hi⟩))) := by
  have hbfl_of : ∀ a : List Nat, (a.length = 2 ∨ a.length = 4 ∨ a.length = 8 ∨
      a.length = 16 ∨ a.length = 32 ∨ a.length = 64) →
      ∃ bits, bitsForLength a.length = some bits := by
    intro a h
    rcases h with h | h | h | h | h | h <;> rw [h] <;> exact ⟨_, rfl⟩
  have hfresh_of : ∀ (a : List Nat) (c : Nat), c < 128 →
      (List.replicate 128 Encoding.noMapping).getD c 0 = 255 := by
    intro a c hc
    rw [List.getD_eq_getElem?_getD, List.getElem?_replicate]
    simp [hc, Encoding.noMapping]
  refine ⟨?_, ?_, ?_, ?_⟩
  · intro a hlen hascii hnd
    obtain ⟨bits, hbfl⟩ := hbfl_of a hlen
    obtain ⟨hlen2, hb1, hb6, hlog⟩ := bitsForLength_spec a.length bits hbfl
    have hbound : 0 + a.length ≤ 64 := by
      have : (2 : Nat) ^ bits ≤ 2 ^ 6 := Nat.pow_le_pow_right (by norm_num) hb6
      omega
    obtain ⟨t', hbt, _, _, _⟩ :=
      buildTable_ok a 0 (List.replicate 128 Encoding.noMapping)
        (List.length_replicate 128 _) hbound hascii hnd
        (fun c hc => hfresh_of a c (hascii c hc))
    have hnew : Encoding.new a = .ok { table := t', bits_per_char := bits } := by
      unfold Encoding.new
      rw [hbfl, hbt]
    exact ⟨{ table := t', bits_per_char := bits }, hnew, hlog.symm,
      fun j hj => lookup_get a _ hnew j hj⟩
  · intro a hlen
    have hnone : bitsForLength a.length = none := by
      unfold bitsForLength
      push_neg at hlen
      rw [if_neg hlen.1, if_neg hlen.2.1, if_neg hlen.2.2.1, if_neg hlen.2.2.2.1,
        if_neg hlen.2.2.2.2.1, if_neg hlen.2.2.2.2.2]
    unfold Encoding.new
    rw [hnone]
  · intro a i hi hlen hge hclean hnd
    obtain ⟨bits, hbfl⟩ := hbfl_of a hlen
    obtain ⟨hlen2, hb1, hb6, _⟩ := bitsForLength_spec a.length bits hbfl
    have hbound : 0 + a.length ≤ 64 := by
      have : (2 : Nat) ^ bits ≤ 2 ^ 6 := Nat.pow_le_pow_right (by norm_num) hb6
      omega
    have herr : buildTable a 0 (List.replicate 128 Encoding.noMapping) =
        .error (.nonAsciiChar (0 + i)) :=
      buildTable_err_ascii a 0 _ i hi (List.length_replicate 128 _) hbound
        (fun c hc => ⟨hclean c hc, hfresh_of a c (hclean c hc)⟩) hnd hge
    unfold Encoding.new
    rw [hbfl, herr, Nat.zero_add]
  · intro a i hi hlen h128 hdup hclean hnd
    obtain ⟨bits, hbfl⟩ := hbfl_of a hlen
    obtain ⟨hlen2, hb1, hb6, _⟩ := bitsForLength_spec a.length bits hbfl
    have hbound : 0 + a.length ≤ 64 := by
      have : (2 : Nat) ^ bits ≤ 2 ^ 6 := Nat.pow_le_pow_right (by norm_num) hb6
      omega
    have herr : buildTable a 0 (List.replicate 128 Encoding.noMapping) =
        .error (.duplicateChar (a.get ⟨i, hi⟩)) :=
      buildTable_err_dup a 0 _ i hi (List.length_replicate 128 _) hbound
        (fun c hc => ⟨hclean c hc, hfresh_of a c (hclean c hc)⟩) hnd h128 (Or.inl hdup)
    unfold Encoding.new
    rw [hbfl, herr]

/-- Witness for C9: the two-character alphabet "01" builds successfully
with one bit per digit, and the length-3 alphabet "abc" is rejected for
its length. -/
theorem c9_alphabet_build_witness :
    (∃ e, Encoding.new [48, 49] = .ok e ∧ e.bits_per_char = Nat.log2 [48, 49].length ∧
      ∀ j (hj : j < [48, 49].length), e.lookup ([48, 49].get ⟨j, hj⟩) = .ok j) ∧
    Encoding.new [97, 98, 99] = .error (.invalidAlphabetLength [97, 98, 99].length) :=
  ⟨c9_alphabet_build.1 [48, 49] (by decide) (by decide) (by decide),
    c9_alphabet_build.2.1 [97, 98, 99] (by decide)⟩

/-- C10: for every alphabet accepted by the builder, the generic
bit-packing state satisfies the representation invariant
`filled_bits < 8` and `partial_byte < 2^filled_bits` (so the
accumulator is 0 whenever no bits are filled) in the initial state and
after every successful update, hence after every sequence of valid
digits. -/
theorem c10_state_invariant (a : List Nat) (e : Encoding)
    (hnew : Encoding.new a = .ok e) :
    StateInv (CustomDecoderState.new e) ∧
    (∀ st : CustomDecoderState, StateInv st → st.filled_bits = 0 → st.accum_byte = 0) ∧
    (∀ (st st' : CustomDecoderState) (c : Nat) (o : Option Nat),
      st.table = e → StateInv st → st.update c = .ok (st', o) → StateInv st') := by
  obtain ⟨hlen2, hb1, hb6, _, _, _, _, _⟩ := Encoding_new_spec a e hnew
  refine ⟨new_state_inv e, ?_, ?_⟩
  · intro st hinv hf0
    have := hinv.2
    rw [hf0] at this
    simpa using this
  · intro st st' c o htab hinv hup
    unfold CustomDecoderState.update at hup
    cases hlk : st.table.lookup c with
    | error err =>
      rw [hlk] at hup
      exact Except.noConfusion hup
    | ok d =>
      rw [hlk] at hup
      have hd : d < 2 ^ st.table.bits_per_char := by
        rw [htab] at hlk ⊢
        exact lookup_lt a e hnew c d hlk
      obtain ⟨_, hinv', _, _, _⟩ :=
        step_spec st d (by rw [htab]; exact hb1) (by rw [htab]; exact hb6) hinv hd
      have hpair : st.step d = (st', o) := Except.ok.inj hup
      have hst' : st' = (st.step d).1 := by
        rw [hpair]
      rw [hst']
      exact hinv'

/-- Witness for C10 at the Base64 encoding: the fresh state satisfies
the invariant, and one successful update preserves it. -/
theorem c10_state_invariant_witness :
    StateInv (CustomDecoderState.new Encoding.BASE64) :=
  (c10_state_invariant base64Alphabet Encoding.BASE64 (by decide)).1
